import Mathlib

/-! Local search dispatch for SMT (`sat/smt/euf_local_search.cpp`)

A shallow embedding of `euf::solver::local_search`, `euf::solver::is_propositional`
and `euf::solver::setup_bounds`.

The boolean engine (`sat::ddfw`), the theory solvers (`th_solver`), the congruence
structure (`m_egraph`) and the resource limits are collaborators whose code is not part
of this unit.  Their joint state is a value of an arbitrary type `σ` (the *world*) and
every call into them is a field of `Env σ`: an arbitrary function on the world.  Each
function of the unit returns the new state together with the list of calls it made, in
program order.

Pointers to expressions and to congruence nodes are identifiers (`Nat`); a nullable
pointer is an `Option`.  `unsigned` is a natural number reduced modulo `2 ^ 32`.
-/

namespace euf

/-- Three-valued result type `lbool`. -/
inductive lbool
  | l_false
  | l_undef
  | l_true
  deriving DecidableEq, Repr

/-- A literal `sat::literal`: a boolean variable with a polarity bit. -/
structure literal where
  var : Nat
  sign : Bool
  deriving DecidableEq, Repr

/-- Identifier of a non-null `expr*`. -/
abbrev expr := Nat

/-- Identifier of a non-null `euf::enode*`. -/
abbrev enode := Nat

/-- Modulus of the C++ type `unsigned`. -/
def UINT_MOD : Nat := 2 ^ 32

/-- One call from this unit into a collaborator (or one line written to
`verbose_stream()`), with its arguments and, for the calls whose result
drives the control flow, its result. -/
inductive Event
  | reinit (phase : List Bool)
  | updt_params
  | set_seed
  | push_child
  | set_bool_search (th : Nat) (ddfw_nonnull : Bool)
  | inc (ok : Bool)
  | set_bounds_begin (th : Nat)
  | set_bounds (th : Nat) (n : Option enode)
  | set_bounds_end (th : Nat) (num_literals : Nat)
  | verbose_bounds (num_literals num_bool max_bool_steps : Nat)
  | verbose_assumptions (n : Nat)
  | rlimit_push (delta : Nat)
  | check (assumptions : List literal) (r : lbool)
  | rlimit_pop
  | th_local_search (th : Nat)
  | unsat_empty (b : Bool)
  | pop_child
  deriving DecidableEq, Repr

/-- The collaborators of the unit, over a world of type `σ`.

* `num_solvers` is `m_solvers.size()`; theory solver `th` is `m_solvers[th]`.
* `L` is `m_ls_config.L`.
* `bool_var2expr w` is the vector `m_bool_var2expr` (entries may be null).
* `find w e` is `m_egraph.find(e)`.
* `inc` is `m.inc()`: it reports whether the resource limit still allows work.
* `reinit`, `updt_params`, `set_seed`, `check`, `unsat_set`, `get_clause_info`,
  `get_model`, `rlimit_push`, `rlimit_pop` are the methods of the engine
  `bool_search` (the last two on `bool_search.rlimit()`).
* `push_child`, `pop_child` are the effect of `scoped_limits` on `m.limit()`.
* `set_bool_search`, `set_bounds_begin`, `set_bounds`, `set_bounds_end`,
  `th_local_search` are the methods of theory solver `th`. -/
structure Env (σ : Type) where
  num_solvers : Nat
  L : Nat
  bool_var2expr : σ → List (Option expr)
  is_uninterp_const : expr → Bool
  find : σ → expr → Option enode
  inc : σ → Bool × σ
  reinit : List Bool → σ → σ
  updt_params : σ → σ
  set_seed : σ → σ
  push_child : σ → σ
  pop_child : σ → σ
  set_bool_search : Nat → Bool → σ → σ
  set_bounds_begin : Nat → σ → σ
  set_bounds : Nat → Option enode → σ → σ
  set_bounds_end : Nat → Nat → σ → σ
  th_local_search : Nat → List Bool → σ → List Bool × σ
  rlimit_push : Nat → σ → σ
  rlimit_pop : σ → σ
  check : List literal → σ → lbool × σ
  unsat_set : σ → List Nat
  get_clause_info : σ → Nat → List literal
  get_model : σ → List lbool

/-- State of `euf::solver` as far as this unit reads or writes it: the world of
the collaborators and the member `m_max_bool_steps`. -/
structure State (σ : Type) where
  world : σ
  m_max_bool_steps : Nat

/-- The call `v.get(idx, dflt)` of z3 vectors: the entry at `idx`, or `dflt` when
`idx` is not below the size. -/
def vector_get {α : Type} (v : List α) (idx : Nat) (dflt : α) : α :=
  if idx < v.length then v.getD idx dflt else dflt

/-- A range-for loop: run `body` on each element in order, threading the state
and collecting the calls made. -/
def for_each {α S : Type} (body : α → S → S × List Event) : List α → S → S × List Event
  | [], s => (s, [])
  | x :: xs, s =>
    let r1 := body x s
    let r2 := for_each body xs r1.1
    (r2.1, r1.2 ++ r2.2)

/-- The loop `for (auto* th : m_solvers)`: the indices of the theory solvers. -/
def m_solvers {σ : Type} (env : Env σ) : List Nat :=
  List.range env.num_solvers

/-- Embedding of `solver::is_propositional`:
`expr* e = m_bool_var2expr.get(lit.var(), nullptr);`
`return !e || is_uninterp_const(e) || !m_egraph.find(e);` -/
def is_propositional {σ : Type} (env : Env σ) (w : σ) (lit : literal) : Bool :=
  match vector_get (env.bool_var2expr w) lit.var none with
  | none => true
  | some e => env.is_uninterp_const e || (env.find w e).isNone

/-- The argument of `set_bounds` in `count_literal`:
`m_egraph.find(m_bool_var2expr.get(l.var(), nullptr))`. -/
def literal_node {σ : Type} (env : Env σ) (w : σ) (l : literal) : Option enode :=
  (vector_get (env.bool_var2expr w) l.var none).bind (env.find w)

/-- The loop `for (auto* th : m_solvers) th->set_bounds_begin();`. -/
def notify_begin {σ : Type} (env : Env σ) (w : σ) : σ × List Event :=
  for_each (fun th w => (env.set_bounds_begin th w, [Event.set_bounds_begin th]))
    (m_solvers env) w

/-- The loop `for (auto* s : m_solvers) s->set_bounds(n);`. -/
def notify_bounds {σ : Type} (env : Env σ) (n : Option enode) (w : σ) : σ × List Event :=
  for_each (fun th w => (env.set_bounds th n w, [Event.set_bounds th n]))
    (m_solvers env) w

/-- The loop `for (auto* th : m_solvers) th->set_bounds_end(num_literals);`. -/
def notify_end {σ : Type} (env : Env σ) (num_literals : Nat) (w : σ) : σ × List Event :=
  for_each (fun th w => (env.set_bounds_end th num_literals w,
    [Event.set_bounds_end th num_literals])) (m_solvers env) w

/-- Local variables of `setup_bounds` during its loops: the world and the two
`unsigned` counters. -/
structure Counters (σ : Type) where
  world : σ
  num_literals : Nat
  num_bool : Nat

/-- The lambda `count_literal` of `setup_bounds`. -/
def count_literal {σ : Type} (env : Env σ) (l : literal) (c : Counters σ) :
    Counters σ × List Event :=
  if is_propositional env c.world l then
    ({ c with num_bool := (c.num_bool + 1) % UINT_MOD }, [])
  else
    let n := literal_node env c.world l
    let r := notify_bounds env n c.world
    ({ c with world := r.1 }, r.2)

/-- Body of the loop over the unsatisfied clauses in `setup_bounds`:
`auto& c = *bool_search.get_clause_info(cl).m_clause; num_literals += c.size();`
`for (auto l : c) count_literal(l);` -/
def count_clause {σ : Type} (env : Env σ) (cl : Nat) (c : Counters σ) :
    Counters σ × List Event :=
  let lits := env.get_clause_info c.world cl
  for_each (count_literal env) lits
    { c with num_literals := (c.num_literals + lits.length) % UINT_MOD }

/-- Embedding of `solver::setup_bounds`.  The parameter `phase` is a `const`
reference the body never reads. -/
def setup_bounds {σ : Type} (env : Env σ) (s : State σ) (_phase : List Bool) :
    State σ × List Event :=
  let b := notify_begin env s.world
  let r := for_each (count_clause env) (env.unsat_set b.1)
    { world := b.1, num_literals := 0, num_bool := 0 }
  let steps1 := (env.L * r.1.num_bool) % UINT_MOD
  let steps2 := max 10000 steps1
  let e := notify_end env r.1.num_literals r.1.world
  ({ world := e.1, m_max_bool_steps := steps2 },
    b.2 ++ r.2 ++ [Event.verbose_bounds r.1.num_literals r.1.num_bool steps2] ++ e.2)

/-- The local variable `unsigned max_rounds = 30;` of `local_search`. -/
def max_rounds : Nat := 30

/-- Variables of the round loop of `local_search`: the solver state, the
caller-owned `phase` and the counter `rounds`. -/
structure LoopState (σ : Type) where
  s : State σ
  phase : List Bool
  rounds : Nat

/-- The loop `for (auto* th : m_solvers) th->local_search(phase);`, on the pair
of the world and `phase`. -/
def theories_local_search {σ : Type} (env : Env σ) (w : σ) (phase : List Bool) :
    (σ × List Bool) × List Event :=
  for_each (fun th (p : σ × List Bool) =>
      let r := env.th_local_search th p.2 p.1
      ((r.2, r.1), [Event.th_local_search th]))
    (m_solvers env) (w, phase)

/-- One round of `local_search`, from `setup_bounds` to the theory solvers'
refinement step (the convergence test is in `round_loop`).  The two `#if 0`
blocks are not compiled, so `assumptions` stays empty. -/
def round_body {σ : Type} (env : Env σ) (ls : LoopState σ) : LoopState σ × List Event :=
  let sb := setup_bounds env ls.s ls.phase
  let assumptions : List literal := []
  let w1 := env.rlimit_push sb.1.m_max_bool_steps sb.1.world
  let r := env.check assumptions w1
  let w2 := env.rlimit_pop r.2
  let t := theories_local_search env w2 ls.phase
  ({ s := { sb.1 with world := t.1.1 }, phase := t.1.2, rounds := ls.rounds },
    sb.2 ++ [Event.verbose_assumptions assumptions.length,
             Event.rlimit_push sb.1.m_max_bool_steps,
             Event.check assumptions r.1,
             Event.rlimit_pop] ++ t.2)

/-- The loop variables after the call `m.inc()` in the condition of the loop. -/
def after_inc {σ : Type} (env : Env σ) (ls : LoopState σ) : LoopState σ :=
  { ls with s := { ls.s with world := (env.inc ls.s.world).2 } }

/-- The loop `for (unsigned rounds = 0; m.inc() && rounds < max_rounds; ++rounds)`
of `local_search`, entered at the evaluation of its condition.  `fuel` bounds the
number of evaluations of the condition; `none` means the fuel ran out. -/
def round_loop {σ : Type} (env : Env σ) : Nat → LoopState σ → Option (LoopState σ × List Event)
  | 0, _ => none
  | fuel + 1, ls =>
    let c := env.inc ls.s.world
    if c.1 && decide (ls.rounds < max_rounds) then
      let b := round_body env (after_inc env ls)
      if (env.unsat_set b.1.s.world).isEmpty then
        some (b.1, Event.inc c.1 :: b.2 ++ [Event.unsat_empty true])
      else
        match round_loop env fuel { b.1 with rounds := b.1.rounds + 1 } with
        | none => none
        | some k => some (k.1, Event.inc c.1 :: b.2 ++ Event.unsat_empty false :: k.2)
    else
      some (after_inc env ls, [Event.inc c.1])

/-- The loop `for (auto* th : m_solvers) th->set_bool_search(&bool_search);`. -/
def register_engine {σ : Type} (env : Env σ) (w : σ) : σ × List Event :=
  for_each (fun th w => (env.set_bool_search th true w, [Event.set_bool_search th true]))
    (m_solvers env) w

/-- The statements of `local_search` before the round loop. -/
def local_search_init {σ : Type} (env : Env σ) (s : State σ) (phase : List Bool) :
    LoopState σ × List Event :=
  let w1 := env.reinit phase s.world
  let w2 := env.updt_params w1
  let w3 := env.set_seed w2
  let w4 := env.push_child w3
  let r := register_engine env w4
  ({ s := { s with world := r.1 }, phase := phase, rounds := 0 },
    [Event.reinit phase, Event.updt_params, Event.set_seed, Event.push_child] ++ r.2)

/-- The statements of `local_search` up to the exit of the round loop.  The
condition of the loop is evaluated at most `max_rounds + 1` times. -/
def run_rounds {σ : Type} (env : Env σ) (s : State σ) (phase : List Bool) :
    Option (LoopState σ × List Event) :=
  let i := local_search_init env s phase
  match round_loop env (max_rounds + 1) i.1 with
  | none => none
  | some k => some (k.1, i.2 ++ k.2)

/-- The assignment `phase[i] = mdl[i] == l_true;`.  Indexing a vector at or
beyond its size is undefined (`SASSERT(idx < size())`): the write fails. -/
def write_phase (mdl : List lbool) (phase : List Bool) (i : Nat) : Option (List Bool) :=
  if i < phase.length then
    some (phase.set i (decide (mdl[i]? = some lbool.l_true)))
  else
    none

/-- The loop `for (unsigned i = 0; i < mdl.size(); ++i) phase[i] = mdl[i] == l_true;`. -/
def copy_model (mdl : List lbool) (phase : List Bool) : Option (List Bool) :=
  (List.range mdl.length).foldlM (write_phase mdl) phase

/-- What a call of `local_search` leaves behind: the returned `lbool`, the
caller's `phase`, the solver state and the calls made. -/
structure Outcome (σ : Type) where
  result : lbool
  phase : List Bool
  s : State σ
  trace : List Event

/-- Embedding of `solver::local_search`.  `none` means that the call does not
return normally: the final copy writes `phase` out of range (the loop itself
always exits within its fuel, see `run_rounds_total`). -/
def local_search {σ : Type} (env : Env σ) (s : State σ) (phase : List Bool) :
    Option (Outcome σ) :=
  match run_rounds env s phase with
  | none => none
  | some k =>
    let mdl := env.get_model k.1.s.world
    match copy_model mdl k.1.phase with
    | none => none
    | some ph =>
      let empty := (env.unsat_set k.1.s.world).isEmpty
      some { result := if empty then lbool.l_true else lbool.l_undef,
             phase := ph,
             s := { k.1.s with world := env.pop_child k.1.s.world },
             trace := k.2 ++ [Event.unsat_empty empty, Event.pop_child] }


/-! ## Observations on traces -/

/-- The calls of the engine's `check` in a trace: one per executed round. -/
def Event.is_check : Event → Bool
  | Event.check _ _ => true
  | _ => false

/-- The lines `num literals ... max bool steps ...` in a trace: one per call of
`setup_bounds`. -/
def Event.is_verbose_bounds : Event → Bool
  | Event.verbose_bounds _ _ _ => true
  | _ => false

/-- The `set_bounds` notifications in a trace. -/
def Event.is_set_bounds : Event → Bool
  | Event.set_bounds _ _ => true
  | _ => false

/-- The calls that `setup_bounds` can make. -/
def Event.in_setup_bounds : Event → Bool
  | Event.set_bounds_begin _ => true
  | Event.set_bounds _ _ => true
  | Event.set_bounds_end _ _ => true
  | Event.verbose_bounds _ _ _ => true
  | _ => false

/-- The calls that one round can make before its convergence test. -/
def Event.in_round_body : Event → Bool
  | Event.set_bounds_begin _ => true
  | Event.set_bounds _ _ => true
  | Event.set_bounds_end _ _ => true
  | Event.verbose_bounds _ _ _ => true
  | Event.verbose_assumptions _ => true
  | Event.rlimit_push _ => true
  | Event.check _ _ => true
  | Event.rlimit_pop => true
  | Event.th_local_search _ => true
  | _ => false

/-- Number of rounds executed in a trace. -/
def rounds_executed (t : List Event) : Nat :=
  t.countP Event.is_check

/-- Number of calls of `setup_bounds` in a trace. -/
def setup_bounds_calls (t : List Event) : Nat :=
  t.countP Event.is_verbose_bounds

/-- The arguments of the `set_bounds` notifications that theory solver `th`
receives in a trace, in order. -/
def bounds_received (th : Nat) (t : List Event) : List (Option enode) :=
  t.filterMap (fun e =>
    match e with
    | Event.set_bounds th1 n => if th1 = th then some n else none
    | _ => none)

/-- In the trace `t` nothing follows an occurrence of the call `y`. -/
def nothing_after (y : Event) (t : List Event) : Prop :=
  ∀ pre post, t = pre ++ y :: post → post = []

/-- The literal occurrences of the unsatisfied clauses in world `w`, in the order
in which `setup_bounds` visits them. -/
def unsat_literals {σ : Type} (env : Env σ) (w : σ) : List literal :=
  (env.unsat_set w).flatMap (env.get_clause_info w)

/-- Two worlds in which `m_bool_var2expr`, `m_egraph.find`, the clauses of the
engine and its unsatisfied-clause set read the same. -/
def same_view {σ : Type} (env : Env σ) (w w1 : σ) : Prop :=
  env.bool_var2expr w1 = env.bool_var2expr w ∧
  (∀ e, env.find w1 e = env.find w e) ∧
  (∀ cl, env.get_clause_info w1 cl = env.get_clause_info w cl) ∧
  env.unsat_set w1 = env.unsat_set w

/-- The `set_bounds` notifications leave `m_bool_var2expr`, the congruence
structure, the clauses of the engine and its unsatisfied-clause set as they are,
so that the loops of `setup_bounds` iterate over containers that do not change
under them. -/
def bounds_frame {σ : Type} (env : Env σ) : Prop :=
  ∀ th n w, same_view env w (env.set_bounds th n w)

/-- The notifications that `count_literal` sends for the literal `l` when the
map and the congruence structure read as in world `w`: none for a propositional
literal, one `set_bounds` per theory solver otherwise. -/
def literal_events {σ : Type} (env : Env σ) (w : σ) (l : literal) : List Event :=
  if is_propositional env w l then []
  else (m_solvers env).map (fun th => Event.set_bounds th (literal_node env w l))

/-- The theory-carrying literal occurrences of the unsatisfied clauses in world `w`. -/
def theory_literals {σ : Type} (env : Env σ) (w : σ) : List literal :=
  (unsat_literals env w).filter (fun l => !is_propositional env w l)

/-- The number of propositional literal occurrences of the unsatisfied clauses in
world `w`. -/
def propositional_count {σ : Type} (env : Env σ) (w : σ) : Nat :=
  (unsat_literals env w).countP (is_propositional env w)

/-- A small instance: two theory solvers; variable 0 has no expression, variable 1
carries expression 7 (node 70), variable 2 carries the uninterpreted constant 8.
The world counts the calls of `check`; the engine's unsatisfied-clause set is empty
from the `n`-th call on, and the resource limit is cancelled from the `c`-th on. -/
def sample_env (n c : Nat) : Env Nat where
  num_solvers := 2
  L := 3
  bool_var2expr := fun _ => [none, some 7, some 8]
  is_uninterp_const := fun e => e == 8
  find := fun _ e => if e = 7 then some 70 else none
  inc := fun w => (decide (w < c), w)
  reinit := fun _ w => w
  updt_params := id
  set_seed := id
  push_child := id
  pop_child := id
  set_bool_search := fun _ _ w => w
  set_bounds_begin := fun _ w => w
  set_bounds := fun _ _ w => w
  set_bounds_end := fun _ _ w => w
  th_local_search := fun _ ph w => (ph, w)
  rlimit_push := fun _ w => w
  rlimit_pop := id
  check := fun _ w => (lbool.l_undef, w + 1)
  unsat_set := fun w => if w < n then [0, 1] else []
  get_clause_info := fun _ cl =>
    if cl = 0 then [⟨0, false⟩, ⟨1, true⟩] else [⟨1, false⟩, ⟨2, false⟩]
  get_model := fun _ => [lbool.l_true, lbool.l_false]

/-- An instance with a large multiplier: `L = 2 ^ 31`, no theory solver, one
unsatisfied clause with two literals over a variable without expression. -/
def wide_env : Env Unit where
  num_solvers := 0
  L := 2147483648
  bool_var2expr := fun _ => []
  is_uninterp_const := fun _ => false
  find := fun _ _ => none
  inc := fun w => (true, w)
  reinit := fun _ w => w
  updt_params := id
  set_seed := id
  push_child := id
  pop_child := id
  set_bool_search := fun _ _ w => w
  set_bounds_begin := fun _ w => w
  set_bounds := fun _ _ w => w
  set_bounds_end := fun _ _ w => w
  th_local_search := fun _ ph w => (ph, w)
  rlimit_push := fun _ w => w
  rlimit_pop := id
  check := fun _ w => (lbool.l_undef, w)
  unsat_set := fun _ => [0]
  get_clause_info := fun _ _ => [⟨0, false⟩, ⟨0, true⟩]
  get_model := fun _ => []


/-! ## Observations for the notification protocol, the scopes and the registration -/

/-- The theory solver a call is addressed to, if any. -/
def Event.solver : Event → Option Nat
  | Event.set_bool_search th _ => some th
  | Event.set_bounds_begin th => some th
  | Event.set_bounds th _ => some th
  | Event.set_bounds_end th _ => some th
  | Event.th_local_search th => some th
  | _ => none

/-- The calls that theory solver `th` receives in a trace, in order. -/
def solver_view (th : Nat) (t : List Event) : List Event :=
  t.filter (fun e => e.solver == some th)

/-- The calls of a theory solver's refinement step `local_search` in a trace. -/
def Event.is_th_local_search : Event → Bool
  | Event.th_local_search _ => true
  | _ => false

/-- Number of refinement steps of theory solvers in a trace. -/
def refinement_calls (t : List Event) : Nat :=
  t.countP Event.is_th_local_search

/-- The calls `push` and `pop` on the engine's resource limit. -/
def Event.is_rlimit : Event → Bool
  | Event.rlimit_push _ => true
  | Event.rlimit_pop => true
  | _ => false

/-- Modelled from the spec: the depth of the engine's resource-limit stack after
the calls in a trace, from depth `d` (the code of `reslimit` is not in this
unit): `push` opens one scope, `pop` closes one, no other call of the unit
changes the depth; `none` when a `pop` finds no open scope. -/
def rlimit_depth : Nat → List Event → Option Nat
  | d, [] => some d
  | d, e :: t =>
    match e with
    | Event.rlimit_push _ => rlimit_depth (d + 1) t
    | Event.rlimit_pop => if d = 0 then none else rlimit_depth (d - 1) t
    | _ => rlimit_depth d t

/-- Modelled from the spec: the engine registered with theory solver `th` after
the calls in a trace (the code of `th_solver::set_bool_search` is not in this
unit): the argument of the last `set_bool_search` the solver received, where
`some true` is the engine of the call and `some false` a null pointer; `none` when
the solver received no such call. -/
def registered_engine (th : Nat) (t : List Event) : Option Bool :=
  (t.filterMap (fun e =>
    match e with
    | Event.set_bool_search th1 b => if th1 = th then some b else none
    | _ => none)).getLast?

/-- The loop of `setup_bounds` over the unsatisfied clauses, started in world `w`
with both counters at 0: the final counters and the notifications sent. -/
def count_unsat_clauses {σ : Type} (env : Env σ) (w : σ) : Counters σ × List Event :=
  for_each (count_clause env) (env.unsat_set w)
    { world := w, num_literals := 0, num_bool := 0 }

/-- The calls of `set_bool_search` in a trace. -/
def Event.is_set_bool_search : Event → Bool
  | Event.set_bool_search _ _ => true
  | _ => false

/-- The state of the variables in which a run of the loop of `local_search`
starts: the entry of the first round. -/
def loop_entry {σ : Type} (env : Env σ) (s : State σ) (phase : List Bool) : LoopState σ :=
  (local_search_init env s phase).1

/-- An instance whose engine leaves a satisfied state: no theory solver, the
world counts the calls of `check`, the unsatisfied-clause set is empty before the
first call and holds clause 0 after it. -/
def restless_env : Env Nat where
  num_solvers := 0
  L := 1
  bool_var2expr := fun _ => []
  is_uninterp_const := fun _ => false
  find := fun _ _ => none
  inc := fun w => (true, w)
  reinit := fun _ w => w
  updt_params := id
  set_seed := id
  push_child := id
  pop_child := id
  set_bool_search := fun _ _ w => w
  set_bounds_begin := fun _ w => w
  set_bounds := fun _ _ w => w
  set_bounds_end := fun _ _ w => w
  th_local_search := fun _ ph w => (ph, w)
  rlimit_push := fun _ w => w
  rlimit_pop := id
  check := fun _ w => (lbool.l_undef, w + 1)
  unsat_set := fun w => if w = 0 then [] else [0]
  get_clause_info := fun _ _ => [⟨0, false⟩]
  get_model := fun _ => []

/-- The entry states of the rounds executed in a run of the loop of `local_search`
that evaluates its condition in the loop variables `ls`: a round is entered in the
state left by `m.inc()`, and the condition is evaluated next in the state the round
left, with `rounds` incremented. -/
def round_chain {σ : Type} (env : Env σ) : LoopState σ → List (LoopState σ) → Prop
  | _, [] => True
  | ls, e :: rest =>
    e = after_inc env ls ∧
      round_chain env { (round_body env e).1 with rounds := ls.rounds + 1 } rest

/-- An instance whose theory solvers write `phase`: solver 0 sets `phase[1]`,
solver 1 copies `phase[1]` to `phase[2]`; the model covers index 0 only, and the
engine converges with its first `check`. -/
def writing_env : Env Nat where
  num_solvers := 2
  L := 1
  bool_var2expr := fun _ => []
  is_uninterp_const := fun _ => false
  find := fun _ _ => none
  inc := fun w => (true, w)
  reinit := fun _ w => w
  updt_params := id
  set_seed := id
  push_child := id
  pop_child := id
  set_bool_search := fun _ _ w => w
  set_bounds_begin := fun _ w => w
  set_bounds := fun _ _ w => w
  set_bounds_end := fun _ _ w => w
  th_local_search := fun th ph w =>
    (if th = 0 then ph.set 1 true else ph.set 2 (ph.getD 1 false), w)
  rlimit_push := fun _ w => w
  rlimit_pop := id
  check := fun _ w => (lbool.l_true, w + 1)
  unsat_set := fun w => if w = 0 then [0] else []
  get_clause_info := fun _ _ => [⟨0, false⟩]
  get_model := fun _ => [lbool.l_false]

theorem for_each_invariant {α S : Type} (body : α → S → S × List Event) (P : S → Prop)
    (hstep : ∀ x s, P s → P (body x s).1) (xs : List α) (s : S) (h : P s) :
    P (for_each body xs s).1 := by
  induction xs generalizing s with
  | nil => simpa [for_each] using h
  | cons x xs ih => simpa [for_each] using ih _ (hstep x s h)

theorem for_each_trace_mem {α S : Type} (body : α → S → S × List Event) (Q : Event → Prop)
    (hstep : ∀ x s e, e ∈ (body x s).2 → Q e) (xs : List α) (s : S) :
    ∀ e ∈ (for_each body xs s).2, Q e := by
  induction xs generalizing s with
  | nil => simp [for_each]
  | cons x xs ih =>
    intro e he
    simp only [for_each, List.mem_append] at he
    rcases he with he | he
    · exact hstep x s e he
    · exact ih _ e he

theorem for_each_trace_map {α S : Type} (step : α → S → S) (ev : α → Event)
    (xs : List α) (s : S) :
    (for_each (fun x s => (step x s, [ev x])) xs s).2 = xs.map ev := by
  induction xs generalizing s with
  | nil => simp [for_each]
  | cons x xs ih => simp [for_each, ih]

theorem notify_begin_trace {σ : Type} (env : Env σ) (w : σ) :
    (notify_begin env w).2 = (m_solvers env).map Event.set_bounds_begin := by
  unfold notify_begin
  exact for_each_trace_map _ _ _ _

theorem notify_bounds_trace {σ : Type} (env : Env σ) (n : Option enode) (w : σ) :
    (notify_bounds env n w).2 = (m_solvers env).map (fun th => Event.set_bounds th n) := by
  unfold notify_bounds
  exact for_each_trace_map _ _ _ _

theorem notify_end_trace {σ : Type} (env : Env σ) (k : Nat) (w : σ) :
    (notify_end env k w).2 = (m_solvers env).map (fun th => Event.set_bounds_end th k) := by
  unfold notify_end
  exact for_each_trace_map _ _ _ _

theorem register_engine_trace {σ : Type} (env : Env σ) (w : σ) :
    (register_engine env w).2 = (m_solvers env).map (fun th => Event.set_bool_search th true) := by
  unfold register_engine
  exact for_each_trace_map _ _ _ _

theorem theories_local_search_trace {σ : Type} (env : Env σ) (w : σ) (phase : List Bool) :
    (theories_local_search env w phase).2 = (m_solvers env).map Event.th_local_search := by
  unfold theories_local_search
  exact for_each_trace_map (fun th (p : σ × List Bool) =>
    ((env.th_local_search th p.2 p.1).2, (env.th_local_search th p.2 p.1).1)) _ _ _


/-! ## Which calls each part makes -/

theorem count_literal_trace_kind {σ : Type} (env : Env σ) (l : literal) (c : Counters σ) :
    ∀ e ∈ (count_literal env l c).2, e.in_setup_bounds = true := by
  intro e he
  unfold count_literal at he
  split at he
  · simp at he
  · simp only [notify_bounds_trace, List.mem_map] at he
    obtain ⟨th, _, rfl⟩ := he
    rfl

theorem count_clause_trace_kind {σ : Type} (env : Env σ) (cl : Nat) (c : Counters σ) :
    ∀ e ∈ (count_clause env cl c).2, e.in_setup_bounds = true := by
  unfold count_clause
  exact for_each_trace_mem _ _ (fun l c e he => count_literal_trace_kind env l c e he) _ _

theorem setup_bounds_trace_kind {σ : Type} (env : Env σ) (s : State σ) (phase : List Bool) :
    ∀ e ∈ (setup_bounds env s phase).2, e.in_setup_bounds = true := by
  intro e he
  simp only [setup_bounds, List.mem_append, List.mem_singleton] at he
  rcases he with ((he | he) | he) | he
  · rw [notify_begin_trace, List.mem_map] at he
    obtain ⟨th, _, rfl⟩ := he
    rfl
  · exact for_each_trace_mem _ _ (fun cl c e he => count_clause_trace_kind env cl c e he) _ _ e he
  · subst he
    rfl
  · rw [notify_end_trace, List.mem_map] at he
    obtain ⟨th, _, rfl⟩ := he
    rfl

theorem round_body_trace {σ : Type} (env : Env σ) (ls : LoopState σ) :
    (round_body env ls).2 =
      (setup_bounds env ls.s ls.phase).2 ++
        [Event.verbose_assumptions 0,
         Event.rlimit_push (setup_bounds env ls.s ls.phase).1.m_max_bool_steps,
         Event.check []
           (env.check [] (env.rlimit_push (setup_bounds env ls.s ls.phase).1.m_max_bool_steps
             (setup_bounds env ls.s ls.phase).1.world)).1,
         Event.rlimit_pop] ++
        (m_solvers env).map Event.th_local_search := by
  simp [round_body, theories_local_search_trace]

theorem round_body_trace_kind {σ : Type} (env : Env σ) (ls : LoopState σ) :
    ∀ e ∈ (round_body env ls).2, e.in_round_body = true := by
  intro e he
  rw [round_body_trace] at he
  simp only [List.mem_append, List.mem_cons, List.mem_singleton, List.mem_map,
    List.not_mem_nil, or_false] at he
  rcases he with (he | he) | he
  · have h := setup_bounds_trace_kind env ls.s ls.phase e he
    cases e <;> simp_all [Event.in_setup_bounds, Event.in_round_body]
  · rcases he with rfl | rfl | rfl | rfl <;> rfl
  · obtain ⟨th, _, rfl⟩ := he
    rfl

theorem round_body_rounds {σ : Type} (env : Env σ) (ls : LoopState σ) :
    (round_body env ls).1.rounds = ls.rounds := rfl

/-! ## The round loop -/

/-- Induction on the rounds of a run of the loop: a property of (entry state,
exit state and calls made) that holds for an exit at the condition, for a round
that converges, and is passed on from the rest of a run to the run, holds for
every run. -/
theorem round_loop_induct {σ : Type} (env : Env σ)
    (P : LoopState σ → LoopState σ × List Event → Prop)
    (hexit : ∀ ls, ((env.inc ls.s.world).1 && decide (ls.rounds < max_rounds)) = false →
      P ls (after_inc env ls, [Event.inc (env.inc ls.s.world).1]))
    (hbreak : ∀ ls, (env.inc ls.s.world).1 = true → ls.rounds < max_rounds →
      (env.unsat_set (round_body env (after_inc env ls)).1.s.world).isEmpty = true →
      P ls ((round_body env (after_inc env ls)).1,
        Event.inc true :: (round_body env (after_inc env ls)).2 ++ [Event.unsat_empty true]))
    (hstep : ∀ ls k, (env.inc ls.s.world).1 = true → ls.rounds < max_rounds →
      (env.unsat_set (round_body env (after_inc env ls)).1.s.world).isEmpty = false →
      (∃ fuel, round_loop env fuel
        { (round_body env (after_inc env ls)).1 with rounds := ls.rounds + 1 } = some k) →
      P { (round_body env (after_inc env ls)).1 with rounds := ls.rounds + 1 } k →
      P ls (k.1, Event.inc true :: (round_body env (after_inc env ls)).2 ++
        Event.unsat_empty false :: k.2)) :
    ∀ fuel ls k, round_loop env fuel ls = some k → P ls k := by
  intro fuel
  induction fuel with
  | zero => intro ls k h; simp [round_loop] at h
  | succ fuel ih =>
    intro ls k h
    unfold round_loop at h
    by_cases hc : ((env.inc ls.s.world).1 && decide (ls.rounds < max_rounds)) = true
    · have hc1 : (env.inc ls.s.world).1 = true := by
        simp only [Bool.and_eq_true] at hc; exact hc.1
      have hc2 : ls.rounds < max_rounds := by
        simp only [Bool.and_eq_true, decide_eq_true_eq] at hc; exact hc.2
      simp only [hc, if_true] at h
      by_cases he : (env.unsat_set (round_body env (after_inc env ls)).1.s.world).isEmpty = true
      · simp only [he, if_true, Option.some.injEq] at h
        rw [hc1] at h
        rw [← h]
        exact hbreak ls hc1 hc2 he
      · simp only [he] at h
        cases hr : round_loop env fuel
            { (round_body env (after_inc env ls)).1 with
              rounds := (round_body env (after_inc env ls)).1.rounds + 1 } with
        | none => rw [hr] at h; simp at h
        | some k1 =>
          rw [hr] at h
          simp only [Bool.false_eq_true, if_false, Option.some.injEq] at h
          rw [hc1] at h
          rw [← h]
          have he2 : (env.unsat_set (round_body env (after_inc env ls)).1.s.world).isEmpty
              = false := by simpa using he
          exact hstep ls k1 hc1 hc2 he2 ⟨fuel, hr⟩ (ih _ k1 hr)
    · have hc0 : ((env.inc ls.s.world).1 && decide (ls.rounds < max_rounds)) = false := by
        simpa using hc
      simp only [hc0, Bool.false_eq_true, if_false, Option.some.injEq] at h
      rw [← h]
      exact hexit ls hc0

/-- Enough fuel: the loop exits when the fuel exceeds the rounds left. -/
theorem round_loop_total {σ : Type} (env : Env σ) :
    ∀ fuel (ls : LoopState σ), max_rounds - ls.rounds < fuel →
      ∃ k, round_loop env fuel ls = some k := by
  intro fuel
  induction fuel with
  | zero => intro ls h; omega
  | succ fuel ih =>
    intro ls h
    unfold round_loop
    by_cases hc : ((env.inc ls.s.world).1 && decide (ls.rounds < max_rounds)) = true
    · have hc2 : ls.rounds < max_rounds := by
        simp only [Bool.and_eq_true, decide_eq_true_eq] at hc; exact hc.2
      simp only [hc, if_true]
      by_cases he : (env.unsat_set (round_body env (after_inc env ls)).1.s.world).isEmpty = true
      · simp [he]
      · simp only [he]
        obtain ⟨k1, hk1⟩ := ih { (round_body env (after_inc env ls)).1 with
            rounds := (round_body env (after_inc env ls)).1.rounds + 1 }
          (by simp only [round_body_rounds]; show max_rounds - ((after_inc env ls).rounds + 1) < fuel
              have : (after_inc env ls).rounds = ls.rounds := rfl
              omega)
        rw [hk1]
        simp
    · simp [hc]

/-- Every property of (entry state, exit state, calls made) of the loop proved by
`round_loop_induct` holds of the loop of `local_search`. -/
theorem run_rounds_loop {σ : Type} (env : Env σ) (s : State σ) (phase : List Bool) :
    ∃ k, round_loop env (max_rounds + 1) (local_search_init env s phase).1 = some k ∧
      run_rounds env s phase = some (k.1, (local_search_init env s phase).2 ++ k.2) := by
  obtain ⟨k, hk⟩ := round_loop_total env (max_rounds + 1) (local_search_init env s phase).1
    (by omega)
  exact ⟨k, hk, by simp only [run_rounds, hk]⟩

theorem run_rounds_total {σ : Type} (env : Env σ) (s : State σ) (phase : List Bool) :
    ∃ k, run_rounds env s phase = some k := by
  obtain ⟨k, _, h⟩ := run_rounds_loop env s phase
  exact ⟨_, h⟩


/-! ## Counting calls -/

theorem countP_eq_zero_of_kind (p q : Event → Bool) (t : List Event)
    (hq : ∀ e ∈ t, q e = true) (hpq : ∀ e, q e = true → p e = false) :
    t.countP p = 0 := by
  rw [List.countP_eq_zero]
  intro e he hp
  have := hpq e (hq e he)
  rw [this] at hp
  exact Bool.false_ne_true hp

theorem count_literal_trace_set_bounds {σ : Type} (env : Env σ) (l : literal) (c : Counters σ) :
    ∀ e ∈ (count_literal env l c).2, e.is_set_bounds = true := by
  intro e he
  unfold count_literal at he
  split at he
  · simp at he
  · simp only [notify_bounds_trace, List.mem_map] at he
    obtain ⟨th, _, rfl⟩ := he
    rfl

theorem count_clauses_trace_set_bounds {σ : Type} (env : Env σ) (cls : List Nat)
    (c : Counters σ) :
    ∀ e ∈ (for_each (count_clause env) cls c).2, e.is_set_bounds = true := by
  refine for_each_trace_mem _ _ (fun cl c e he => ?_) _ _
  unfold count_clause at he
  exact for_each_trace_mem _ _ (fun l c e he => count_literal_trace_set_bounds env l c e he)
    _ _ e he

theorem countP_map_eq_zero (p : Event → Bool) (f : Nat → Event)
    (hf : ∀ th, p (f th) = false) (xs : List Nat) : List.countP p (xs.map f) = 0 := by
  rw [List.countP_eq_zero]
  intro e he hp
  rw [List.mem_map] at he
  obtain ⟨th, _, rfl⟩ := he
  rw [hf th] at hp
  exact Bool.false_ne_true hp

theorem setup_bounds_calls_setup_bounds {σ : Type} (env : Env σ) (s : State σ)
    (phase : List Bool) : setup_bounds_calls (setup_bounds env s phase).2 = 1 := by
  simp only [setup_bounds_calls, setup_bounds, List.countP_append, notify_begin_trace,
    notify_end_trace]
  rw [countP_eq_zero_of_kind Event.is_verbose_bounds Event.is_set_bounds _
    (count_clauses_trace_set_bounds env _ _)
    (by intro e; cases e <;> simp [Event.is_set_bounds, Event.is_verbose_bounds])]
  rw [countP_map_eq_zero _ _ (fun _ => rfl), countP_map_eq_zero _ _ (fun _ => rfl)]
  rfl

theorem rounds_executed_setup_bounds {σ : Type} (env : Env σ) (s : State σ)
    (phase : List Bool) : rounds_executed (setup_bounds env s phase).2 = 0 :=
  countP_eq_zero_of_kind Event.is_check Event.in_setup_bounds _
    (setup_bounds_trace_kind env s phase)
    (by intro e; cases e <;> simp [Event.in_setup_bounds, Event.is_check])

theorem rounds_executed_round_body {σ : Type} (env : Env σ) (ls : LoopState σ) :
    rounds_executed (round_body env ls).2 = 1 := by
  rw [round_body_trace]
  have h := rounds_executed_setup_bounds env ls.s ls.phase
  simp only [rounds_executed] at h
  simp only [rounds_executed, List.countP_append, h]
  rw [countP_map_eq_zero _ _ (fun _ => rfl)]
  rfl

theorem setup_bounds_calls_round_body {σ : Type} (env : Env σ) (ls : LoopState σ) :
    setup_bounds_calls (round_body env ls).2 = 1 := by
  rw [round_body_trace]
  have h := setup_bounds_calls_setup_bounds env ls.s ls.phase
  simp only [setup_bounds_calls] at h
  simp only [setup_bounds_calls, List.countP_append, h]
  rw [countP_map_eq_zero _ _ (fun _ => rfl)]
  rfl

theorem local_search_init_counts {σ : Type} (env : Env σ) (s : State σ) (phase : List Bool) :
    rounds_executed (local_search_init env s phase).2 = 0 ∧
      setup_bounds_calls (local_search_init env s phase).2 = 0 := by
  simp only [rounds_executed, setup_bounds_calls, local_search_init, register_engine_trace,
    List.countP_append]
  constructor
  · rw [countP_map_eq_zero _ _ (fun _ => rfl)]
    rfl
  · rw [countP_map_eq_zero _ _ (fun _ => rfl)]
    rfl

theorem rounds_executed_cons (e : Event) (t : List Event) :
    rounds_executed (e :: t) = rounds_executed t + (if e.is_check = true then 1 else 0) := by
  simp [rounds_executed, List.countP_cons]

theorem rounds_executed_append (t1 t2 : List Event) :
    rounds_executed (t1 ++ t2) = rounds_executed t1 + rounds_executed t2 := by
  simp [rounds_executed]

theorem setup_bounds_calls_cons (e : Event) (t : List Event) :
    setup_bounds_calls (e :: t) =
      setup_bounds_calls t + (if e.is_verbose_bounds = true then 1 else 0) := by
  simp [setup_bounds_calls, List.countP_cons]

theorem setup_bounds_calls_append (t1 t2 : List Event) :
    setup_bounds_calls (t1 ++ t2) = setup_bounds_calls t1 + setup_bounds_calls t2 := by
  simp [setup_bounds_calls]

/-- Counting along a run of the loop: the rounds executed never take the counter
`rounds` beyond `max_rounds`, and each round calls `setup_bounds` once. -/
theorem round_loop_counts {σ : Type} (env : Env σ) (fuel : Nat) (ls : LoopState σ)
    (k : LoopState σ × List Event) (h : round_loop env fuel ls = some k) :
    (ls.rounds ≤ max_rounds → ls.rounds + rounds_executed k.2 ≤ max_rounds) ∧
      setup_bounds_calls k.2 = rounds_executed k.2 := by
  refine round_loop_induct env
    (fun ls k => (ls.rounds ≤ max_rounds → ls.rounds + rounds_executed k.2 ≤ max_rounds) ∧
      setup_bounds_calls k.2 = rounds_executed k.2) ?_ ?_ ?_ fuel ls k h
  · intro ls _
    simp [rounds_executed, setup_bounds_calls, Event.is_check, Event.is_verbose_bounds,
      List.countP_cons]
  · intro ls _ hlt _
    have h1 := rounds_executed_round_body env (after_inc env ls)
    have h2 := setup_bounds_calls_round_body env (after_inc env ls)
    simp only [rounds_executed_cons, rounds_executed_append, setup_bounds_calls_cons,
      setup_bounds_calls_append, h1, h2, Event.is_check, Event.is_verbose_bounds]
    simp [rounds_executed, setup_bounds_calls]
    omega
  · intro ls k _ hlt _ _ ih
    have h1 := rounds_executed_round_body env (after_inc env ls)
    have h2 := setup_bounds_calls_round_body env (after_inc env ls)
    obtain ⟨ih1, ih2⟩ := ih
    have ih3 : ls.rounds + 1 + rounds_executed k.2 ≤ max_rounds := ih1 hlt
    simp only [rounds_executed_cons, rounds_executed_append, setup_bounds_calls_cons,
      setup_bounds_calls_append, h1, h2, ih2, Event.is_check, Event.is_verbose_bounds]
    simp
    omega

theorem round_loop_rounds_le {σ : Type} (env : Env σ) (fuel : Nat) (ls : LoopState σ)
    (k : LoopState σ × List Event) (h : round_loop env fuel ls = some k)
    (hle : ls.rounds ≤ max_rounds) : k.1.rounds ≤ max_rounds := by
  refine round_loop_induct env
    (fun ls k => ls.rounds ≤ max_rounds → k.1.rounds ≤ max_rounds) ?_ ?_ ?_ fuel ls k h hle
  · intro ls _ h
    exact h
  · intro ls _ _ _ h
    exact h
  · intro ls k _ hlt _ _ ih _
    exact ih hlt

/-! ## The final copy of the model -/

theorem copy_model_upto (mdl : List lbool) (phase : List Bool) :
    ∀ n, (n ≤ phase.length →
        ∃ ph, (List.range n).foldlM (write_phase mdl) phase = some ph ∧
          ph.length = phase.length ∧
          (∀ i, i < n → ph[i]? = some (decide (mdl[i]? = some lbool.l_true))) ∧
          (∀ i, n ≤ i → ph[i]? = phase[i]?)) ∧
      (phase.length < n → (List.range n).foldlM (write_phase mdl) phase = none) := by
  intro n
  induction n with
  | zero =>
    refine ⟨fun _ => ⟨phase, by simp [List.range_zero], rfl, ?_, ?_⟩, fun h => by omega⟩
    · intro i hi; omega
    · intro i _; rfl
  | succ n ih =>
    obtain ⟨ih1, ih2⟩ := ih
    rw [List.range_succ, List.foldlM_append]
    constructor
    · intro hn
      obtain ⟨ph, hph, hlen, hlo, hhi⟩ := ih1 (by omega)
      refine ⟨ph.set n (decide (mdl[n]? = some lbool.l_true)), ?_, ?_, ?_, ?_⟩
      · rw [hph]
        simp [write_phase, hlen]
        omega
      · simp [hlen]
      · intro i hi
        by_cases hin : i = n
        · subst hin
          rw [List.getElem?_set_self (by omega)]
        · rw [List.getElem?_set_ne (by omega)]
          exact hlo i (by omega)
      · intro i hi
        rw [List.getElem?_set_ne (by omega)]
        exact hhi i (by omega)
    · intro hn
      by_cases hle : n ≤ phase.length
      · obtain ⟨ph, hph, hlen, _, _⟩ := ih1 hle
        rw [hph]
        simp [write_phase, hlen]
        omega
      · rw [ih2 (by omega)]
        rfl

theorem copy_model_some (mdl : List lbool) (phase : List Bool)
    (h : mdl.length ≤ phase.length) :
    ∃ ph, copy_model mdl phase = some ph ∧ ph.length = phase.length ∧
      (∀ i, i < mdl.length → ph[i]? = some (decide (mdl[i]? = some lbool.l_true))) ∧
      (∀ i, mdl.length ≤ i → ph[i]? = phase[i]?) :=
  (copy_model_upto mdl phase mdl.length).1 h

theorem copy_model_none (mdl : List lbool) (phase : List Bool)
    (h : phase.length < mdl.length) : copy_model mdl phase = none :=
  (copy_model_upto mdl phase mdl.length).2 h

/-- What `local_search` returns, in terms of the loop's exit state. -/
theorem local_search_eq {σ : Type} (env : Env σ) (s : State σ) (phase : List Bool)
    (k : LoopState σ × List Event) (hk : run_rounds env s phase = some k) :
    local_search env s phase =
      (copy_model (env.get_model k.1.s.world) k.1.phase).map (fun ph =>
        { result := if (env.unsat_set k.1.s.world).isEmpty then lbool.l_true else lbool.l_undef,
          phase := ph,
          s := { k.1.s with world := env.pop_child k.1.s.world },
          trace := k.2 ++ [Event.unsat_empty (env.unsat_set k.1.s.world).isEmpty,
            Event.pop_child] }) := by
  simp only [local_search, hk]
  cases hc : copy_model (env.get_model k.1.s.world) k.1.phase <;> simp

theorem local_search_some {σ : Type} (env : Env σ) (s : State σ) (phase : List Bool)
    (k : LoopState σ × List Event) (hk : run_rounds env s phase = some k)
    (out : Outcome σ) (hout : local_search env s phase = some out) :
    ∃ ph, copy_model (env.get_model k.1.s.world) k.1.phase = some ph ∧
      out = { result := if (env.unsat_set k.1.s.world).isEmpty then lbool.l_true
                        else lbool.l_undef,
              phase := ph,
              s := { k.1.s with world := env.pop_child k.1.s.world },
              trace := k.2 ++ [Event.unsat_empty (env.unsat_set k.1.s.world).isEmpty,
                Event.pop_child] } := by
  rw [local_search_eq env s phase k hk] at hout
  cases hc : copy_model (env.get_model k.1.s.world) k.1.phase with
  | none => rw [hc] at hout; simp at hout
  | some ph =>
    rw [hc] at hout
    simp only [Option.map, Option.some.injEq] at hout
    exact ⟨ph, rfl, hout.symm⟩


/-! ## Positions in a trace -/

theorem split_left (y : Event) (a c pre post : List Event) (hy : y ∉ a)
    (h : a ++ c = pre ++ y :: post) : ∃ q, pre = a ++ q ∧ c = q ++ y :: post := by
  induction a generalizing pre with
  | nil => exact ⟨pre, rfl, h⟩
  | cons x a ih =>
    cases pre with
    | nil =>
      simp only [List.cons_append, List.nil_append, List.cons.injEq] at h
      exact absurd (h.1 ▸ List.mem_cons_self x a) hy
    | cons p ps =>
      simp only [List.cons_append, List.cons.injEq] at h
      obtain ⟨q, hq1, hq2⟩ := ih ps (fun hm => hy (List.mem_cons_of_mem _ hm)) h.2
      exact ⟨q, by rw [h.1, hq1]; rfl, hq2⟩

theorem split_right (y : Event) (a c pre post : List Event) (hy : y ∉ c)
    (h : a ++ c = pre ++ y :: post) : ∃ q, a = pre ++ y :: q ∧ post = q ++ c := by
  induction a generalizing pre with
  | nil =>
    exfalso
    apply hy
    simp only [List.nil_append] at h
    rw [h]
    simp
  | cons x a ih =>
    cases pre with
    | nil =>
      simp only [List.cons_append, List.nil_append, List.cons.injEq] at h
      exact ⟨a, by rw [h.1]; rfl, h.2.symm⟩
    | cons p ps =>
      simp only [List.cons_append, List.cons.injEq] at h
      obtain ⟨q, hq1, hq2⟩ := ih ps h.2
      exact ⟨q, by rw [h.1, hq1]; rfl, hq2⟩

theorem split_cases (x y : Event) (a c pre post : List Event) (hy : y ∉ a)
    (h : a ++ x :: c = pre ++ y :: post) :
    (pre = a ∧ x = y ∧ post = c) ∨ ∃ q, pre = a ++ x :: q ∧ c = q ++ y :: post := by
  obtain ⟨q, hq1, hq2⟩ := split_left y a (x :: c) pre post hy h
  cases q with
  | nil =>
    simp only [List.nil_append, List.cons.injEq] at hq2
    exact Or.inl ⟨by simpa using hq1, hq2.1, hq2.2.symm⟩
  | cons z zs =>
    simp only [List.cons_append, List.cons.injEq] at hq2
    exact Or.inr ⟨zs, by rw [hq1, hq2.1], hq2.2⟩

theorem nothing_after_singleton (y x : Event) : nothing_after y [x] := by
  intro pre post h
  cases pre with
  | nil =>
    simp only [List.nil_append, List.cons.injEq] at h
    exact h.2.symm
  | cons p ps =>
    simp only [List.cons_append, List.cons.injEq] at h
    cases ps <;> cases h.2

theorem nothing_after_append (y : Event) (a c : List Event) (hy : y ∉ a)
    (hc : nothing_after y c) : nothing_after y (a ++ c) := by
  intro pre post h
  obtain ⟨q, _, hq2⟩ := split_left y a c pre post hy h
  exact hc q post hq2

theorem nothing_after_append_cons (x y : Event) (a c : List Event) (hy : y ∉ a)
    (hx : x ≠ y) (hc : nothing_after y c) : nothing_after y (a ++ x :: c) := by
  intro pre post h
  rcases split_cases x y a c pre post hy h with ⟨_, hxy, _⟩ | ⟨q, _, hq2⟩
  · exact absurd hxy hx
  · exact hc q post hq2

theorem getLast?_append_cons_of_some (z x : Event) (a c : List Event)
    (hc : c.getLast? = some z) : (a ++ x :: c).getLast? = some z := by
  cases c with
  | nil => simp at hc
  | cons c1 cs =>
    rw [List.getLast?_append, List.getLast?_cons_cons, hc]
    rfl

theorem not_mem_round_body {σ : Type} (env : Env σ) (ls : LoopState σ) (e : Event)
    (he : e.in_round_body = false) : e ∉ (round_body env ls).2 := by
  intro hm
  have := round_body_trace_kind env ls e hm
  rw [he] at this
  exact Bool.false_ne_true this

theorem not_mem_inc_round_body {σ : Type} (env : Env σ) (ls : LoopState σ) (e : Event)
    (he : e.in_round_body = false) (hne : e ≠ Event.inc true) :
    e ∉ Event.inc true :: (round_body env ls).2 := by
  intro hm
  rcases List.mem_cons.1 hm with h | h
  · exact hne h
  · exact not_mem_round_body env ls e he h

theorem not_mem_local_search_init {σ : Type} (env : Env σ) (s : State σ)
    (phase : List Bool) :
    (∀ b, Event.inc b ∉ (local_search_init env s phase).2) ∧
      (∀ b, Event.unsat_empty b ∉ (local_search_init env s phase).2) := by
  constructor <;>
  · intro b hm
    simp only [local_search_init, register_engine_trace, List.mem_append, List.mem_cons,
      List.mem_map, List.not_mem_nil, or_false] at hm
    rcases hm with (hm | hm | hm | hm) | ⟨th, _, hm⟩ <;> cases hm

/-! ## Shape of a run of the loop -/

/-- A run of the loop starts with the call `m.inc()`; when that call allows work
and `rounds` is below `max_rounds`, a round follows. -/
theorem round_loop_head {σ : Type} (env : Env σ) (fuel : Nat) (ls : LoopState σ)
    (k : LoopState σ × List Event) (h : round_loop env fuel ls = some k) :
    ∃ rest, k.2 = Event.inc (env.inc ls.s.world).1 :: rest ∧
      ((env.inc ls.s.world).1 = true → ls.rounds < max_rounds →
        1 ≤ rounds_executed rest) := by
  refine round_loop_induct env
    (fun ls k => ∃ rest, k.2 = Event.inc (env.inc ls.s.world).1 :: rest ∧
      ((env.inc ls.s.world).1 = true → ls.rounds < max_rounds →
        1 ≤ rounds_executed rest)) ?_ ?_ ?_ fuel ls k h
  · intro ls hc
    refine ⟨[], rfl, ?_⟩
    intro h1 h2
    rw [h1] at hc
    simp [h2] at hc
  · intro ls hc _ _
    refine ⟨(round_body env (after_inc env ls)).2 ++ [Event.unsat_empty true], ?_, ?_⟩
    · rw [hc]; rfl
    · intro _ _
      rw [rounds_executed_append, rounds_executed_round_body]
      omega
  · intro ls k hc _ _ _ _
    refine ⟨(round_body env (after_inc env ls)).2 ++ Event.unsat_empty false :: k.2, ?_, ?_⟩
    · rw [hc]; rfl
    · intro _ _
      rw [rounds_executed_append, rounds_executed_round_body]
      omega

/-- Nothing follows a convergence test that finds the set empty, and nothing
follows a call of `m.inc()` that reports cancellation. -/
theorem round_loop_nothing_after {σ : Type} (env : Env σ) (fuel : Nat) (ls : LoopState σ)
    (k : LoopState σ × List Event) (h : round_loop env fuel ls = some k) :
    nothing_after (Event.unsat_empty true) k.2 ∧ nothing_after (Event.inc false) k.2 := by
  refine round_loop_induct env
    (fun _ k => nothing_after (Event.unsat_empty true) k.2 ∧
      nothing_after (Event.inc false) k.2) ?_ ?_ ?_ fuel ls k h
  · intro ls _
    exact ⟨nothing_after_singleton _ _, nothing_after_singleton _ _⟩
  · intro ls _ _ _
    constructor
    · exact nothing_after_append _ (Event.inc true :: (round_body env (after_inc env ls)).2)
        [Event.unsat_empty true]
        (not_mem_inc_round_body env _ _ rfl (by simp)) (nothing_after_singleton _ _)
    · exact nothing_after_append _ (Event.inc true :: (round_body env (after_inc env ls)).2)
        [Event.unsat_empty true]
        (not_mem_inc_round_body env _ _ rfl (by simp)) (nothing_after_singleton _ _)
  · intro ls k _ _ _ _ ih
    constructor
    · exact nothing_after_append_cons _ _
        (Event.inc true :: (round_body env (after_inc env ls)).2) k.2
        (not_mem_inc_round_body env _ _ rfl (by simp)) (by simp) ih.1
    · exact nothing_after_append_cons _ _
        (Event.inc true :: (round_body env (after_inc env ls)).2) k.2
        (not_mem_inc_round_body env _ _ rfl (by simp)) (by simp) ih.2

/-- Why a run of the loop ends: convergence, cancellation, or `max_rounds`
rounds. -/
theorem round_loop_exit_reason {σ : Type} (env : Env σ) (fuel : Nat) (ls : LoopState σ)
    (k : LoopState σ × List Event) (h : round_loop env fuel ls = some k)
    (hle : ls.rounds ≤ max_rounds) :
    k.2.getLast? = some (Event.unsat_empty true) ∨
      k.2.getLast? = some (Event.inc false) ∨
      (k.2.getLast? = some (Event.inc true) ∧
        ls.rounds + rounds_executed k.2 = max_rounds) := by
  refine round_loop_induct env
    (fun ls k => ls.rounds ≤ max_rounds →
      k.2.getLast? = some (Event.unsat_empty true) ∨
      k.2.getLast? = some (Event.inc false) ∨
      (k.2.getLast? = some (Event.inc true) ∧
        ls.rounds + rounds_executed k.2 = max_rounds)) ?_ ?_ ?_ fuel ls k h hle
  · intro ls hc hle
    cases hi : (env.inc ls.s.world).1 with
    | false => exact Or.inr (Or.inl rfl)
    | true =>
      rw [hi] at hc
      simp only [Bool.true_and, decide_eq_false_iff_not] at hc
      refine Or.inr (Or.inr ⟨rfl, ?_⟩)
      show ls.rounds + 0 = max_rounds
      omega
  · intro ls _ _ _ _
    left
    show (Event.inc true :: ((round_body env (after_inc env ls)).2 ++
      [Event.unsat_empty true])).getLast? = _
    rw [← List.cons_append, List.getLast?_append]
    rfl
  · intro ls k _ hlt _ _ ih _
    have hcount : rounds_executed (Event.inc true :: (round_body env (after_inc env ls)).2 ++
        Event.unsat_empty false :: k.2) = 1 + rounds_executed k.2 := by
      rw [rounds_executed_append, rounds_executed_cons, rounds_executed_cons,
        rounds_executed_round_body]
      simp [Event.is_check]
    rcases ih hlt with h1 | h1 | ⟨h1, h2⟩
    · exact Or.inl (getLast?_append_cons_of_some _ _ _ _ h1)
    · exact Or.inr (Or.inl (getLast?_append_cons_of_some _ _ _ _ h1))
    · refine Or.inr (Or.inr ⟨getLast?_append_cons_of_some _ _ _ _ h1, ?_⟩)
      rw [hcount]
      have h3 : ls.rounds + 1 + rounds_executed k.2 = max_rounds := h2
      omega


/-! ## `setup_bounds` when the notifications leave the clauses and the congruence
structure alone -/

theorem uint_mod_eq : UINT_MOD = 4294967296 := by
  norm_num [UINT_MOD]

theorem same_view_refl {σ : Type} (env : Env σ) (w : σ) : same_view env w w :=
  ⟨rfl, fun _ => rfl, fun _ => rfl, rfl⟩

theorem same_view_trans {σ : Type} (env : Env σ) (w w1 w2 : σ)
    (h1 : same_view env w w1) (h2 : same_view env w1 w2) : same_view env w w2 :=
  ⟨h2.1.trans h1.1, fun e => (h2.2.1 e).trans (h1.2.1 e),
    fun cl => (h2.2.2.1 cl).trans (h1.2.2.1 cl), h2.2.2.2.trans h1.2.2.2⟩

theorem is_propositional_same_view {σ : Type} (env : Env σ) (w w1 : σ)
    (h : same_view env w w1) (l : literal) :
    is_propositional env w1 l = is_propositional env w l := by
  unfold is_propositional
  rw [h.1]
  cases vector_get (env.bool_var2expr w) l.var none with
  | none => rfl
  | some e => simp only [h.2.1]

theorem literal_node_same_view {σ : Type} (env : Env σ) (w w1 : σ)
    (h : same_view env w w1) (l : literal) :
    literal_node env w1 l = literal_node env w l := by
  unfold literal_node
  rw [h.1]
  cases vector_get (env.bool_var2expr w) l.var none with
  | none => rfl
  | some e => simp only [Option.bind, h.2.1]

theorem notify_bounds_same_view {σ : Type} (env : Env σ) (hframe : bounds_frame env)
    (w w0 : σ) (n : Option enode) (h : same_view env w w0) :
    same_view env w (notify_bounds env n w0).1 := by
  unfold notify_bounds
  exact for_each_invariant _ (fun w1 => same_view env w w1)
    (fun th w1 h1 => same_view_trans env w w1 _ h1 (hframe th n w1)) _ _ h

theorem count_literal_closed {σ : Type} (env : Env σ) (hframe : bounds_frame env)
    (w : σ) (l : literal) (c : Counters σ) (hv : same_view env w c.world) :
    (count_literal env l c).2 = literal_events env w l ∧
      same_view env w (count_literal env l c).1.world ∧
      (count_literal env l c).1.num_literals = c.num_literals ∧
      (count_literal env l c).1.num_bool =
        if is_propositional env w l then (c.num_bool + 1) % UINT_MOD else c.num_bool := by
  have hp := is_propositional_same_view env w c.world hv l
  have hn := literal_node_same_view env w c.world hv l
  unfold count_literal literal_events
  rw [hp]
  cases hprop : is_propositional env w l with
  | true => exact ⟨rfl, hv, rfl, rfl⟩
  | false =>
    refine ⟨?_, ?_, ?_, ?_⟩
    · simp only [Bool.false_eq_true, if_false]
      rw [notify_bounds_trace, hn]
    · simp only [Bool.false_eq_true, if_false]
      exact notify_bounds_same_view env hframe w c.world _ hv
    · simp only [Bool.false_eq_true, if_false]
    · simp only [Bool.false_eq_true, if_false]

theorem count_literals_closed {σ : Type} (env : Env σ) (hframe : bounds_frame env)
    (w : σ) (lits : List literal) :
    ∀ c : Counters σ, same_view env w c.world → c.num_bool < UINT_MOD →
      (for_each (count_literal env) lits c).2 = lits.flatMap (literal_events env w) ∧
      same_view env w (for_each (count_literal env) lits c).1.world ∧
      (for_each (count_literal env) lits c).1.num_literals = c.num_literals ∧
      (for_each (count_literal env) lits c).1.num_bool =
        (c.num_bool + lits.countP (is_propositional env w)) % UINT_MOD := by
  induction lits with
  | nil =>
    intro c hv hb
    refine ⟨rfl, hv, rfl, ?_⟩
    simp only [for_each, List.countP_nil, Nat.add_zero]
    exact (Nat.mod_eq_of_lt hb).symm
  | cons l ls ih =>
    intro c hv hb
    obtain ⟨h1, h2, h3, h4⟩ := count_literal_closed env hframe w l c hv
    have hb2 : (count_literal env l c).1.num_bool < UINT_MOD := by
      rw [h4]
      split
      · exact Nat.mod_lt _ (by rw [uint_mod_eq]; omega)
      · exact hb
    obtain ⟨g1, g2, g3, g4⟩ := ih (count_literal env l c).1 h2 hb2
    simp only [for_each, List.flatMap_cons, List.countP_cons]
    refine ⟨by rw [h1, g1], g2, by rw [g3, h3], ?_⟩
    rw [g4, h4]
    rw [uint_mod_eq] at *
    cases hprop : is_propositional env w l with
    | false => simp
    | true =>
      simp
      omega

theorem count_clause_closed {σ : Type} (env : Env σ) (hframe : bounds_frame env)
    (w : σ) (cl : Nat) (c : Counters σ) (hv : same_view env w c.world)
    (hb : c.num_bool < UINT_MOD) :
    (count_clause env cl c).2 = (env.get_clause_info w cl).flatMap (literal_events env w) ∧
      same_view env w (count_clause env cl c).1.world ∧
      (count_clause env cl c).1.num_literals =
        (c.num_literals + (env.get_clause_info w cl).length) % UINT_MOD ∧
      (count_clause env cl c).1.num_bool =
        (c.num_bool + (env.get_clause_info w cl).countP (is_propositional env w)) %
          UINT_MOD := by
  unfold count_clause
  rw [hv.2.2.1 cl]
  exact count_literals_closed env hframe w (env.get_clause_info w cl)
    { c with num_literals := (c.num_literals + (env.get_clause_info w cl).length) % UINT_MOD }
    hv hb

theorem count_clauses_closed {σ : Type} (env : Env σ) (hframe : bounds_frame env)
    (w : σ) (cls : List Nat) :
    ∀ c : Counters σ, same_view env w c.world → c.num_bool < UINT_MOD →
      c.num_literals < UINT_MOD →
      (for_each (count_clause env) cls c).2 =
        (cls.flatMap (env.get_clause_info w)).flatMap (literal_events env w) ∧
      same_view env w (for_each (count_clause env) cls c).1.world ∧
      (for_each (count_clause env) cls c).1.num_literals =
        (c.num_literals + (cls.flatMap (env.get_clause_info w)).length) % UINT_MOD ∧
      (for_each (count_clause env) cls c).1.num_bool =
        (c.num_bool + (cls.flatMap (env.get_clause_info w)).countP
          (is_propositional env w)) % UINT_MOD := by
  induction cls with
  | nil =>
    intro c hv hb hl
    refine ⟨rfl, hv, ?_, ?_⟩
    · simp only [for_each, List.flatMap_nil, List.length_nil, Nat.add_zero]
      exact (Nat.mod_eq_of_lt hl).symm
    · simp only [for_each, List.flatMap_nil, List.countP_nil, Nat.add_zero]
      exact (Nat.mod_eq_of_lt hb).symm
  | cons cl cls ih =>
    intro c hv hb hl
    obtain ⟨h1, h2, h3, h4⟩ := count_clause_closed env hframe w cl c hv hb
    have hpos : 0 < UINT_MOD := by rw [uint_mod_eq]; omega
    obtain ⟨g1, g2, g3, g4⟩ := ih (count_clause env cl c).1 h2
      (by rw [h4]; exact Nat.mod_lt _ hpos) (by rw [h3]; exact Nat.mod_lt _ hpos)
    simp only [for_each, List.flatMap_cons, List.flatMap_append, List.length_append,
      List.countP_append]
    refine ⟨by rw [h1, g1], g2, ?_, ?_⟩
    · rw [g3, h3, Nat.mod_add_mod, Nat.add_assoc]
    · rw [g4, h4, Nat.mod_add_mod, Nat.add_assoc]

/-- Closed form of `setup_bounds`, relative to the world `w1` in which its loop
over the unsatisfied clauses starts. -/
theorem setup_bounds_closed {σ : Type} (env : Env σ) (hframe : bounds_frame env)
    (s : State σ) (phase : List Bool) :
    (setup_bounds env s phase).1.m_max_bool_steps =
        max 10000 ((env.L * (propositional_count env (notify_begin env s.world).1 %
          UINT_MOD)) % UINT_MOD) ∧
      (setup_bounds env s phase).2 =
        (m_solvers env).map Event.set_bounds_begin ++
        (unsat_literals env (notify_begin env s.world).1).flatMap
          (literal_events env (notify_begin env s.world).1) ++
        [Event.verbose_bounds
          ((unsat_literals env (notify_begin env s.world).1).length % UINT_MOD)
          (propositional_count env (notify_begin env s.world).1 % UINT_MOD)
          (max 10000 ((env.L * (propositional_count env (notify_begin env s.world).1 %
            UINT_MOD)) % UINT_MOD))] ++
        (m_solvers env).map (fun th => Event.set_bounds_end th
          ((unsat_literals env (notify_begin env s.world).1).length % UINT_MOD)) := by
  have hpos : 0 < UINT_MOD := by rw [uint_mod_eq]; omega
  obtain ⟨h1, _, h3, h4⟩ := count_clauses_closed env hframe (notify_begin env s.world).1
    (env.unsat_set (notify_begin env s.world).1)
    { world := (notify_begin env s.world).1, num_literals := 0, num_bool := 0 }
    (same_view_refl env _) hpos hpos
  simp only [Nat.zero_add] at h3 h4
  constructor
  · simp only [setup_bounds, h4, propositional_count, unsat_literals]
  · simp only [setup_bounds, notify_begin_trace, notify_end_trace, h1, h3, h4,
      propositional_count, unsat_literals]


/-! ## The result and the number of rounds -/

/-- C1: for every call of `local_search` the round loop exits; the call returns
unless the final copy writes outside `phase`; and whenever it returns, the result
is `l_true` exactly when the engine's unsatisfied-clause set is empty at loop exit,
`l_undef` otherwise, and never `l_false`. -/
theorem local_search_result {σ : Type} (env : Env σ) (s : State σ) (phase : List Bool) :
    ∃ k, run_rounds env s phase = some k ∧
      ((local_search env s phase).isSome = true ↔
        (env.get_model k.1.s.world).length ≤ k.1.phase.length) ∧
      ∀ out, local_search env s phase = some out →
        (out.result = lbool.l_true ↔ env.unsat_set k.1.s.world = []) ∧
        (out.result = lbool.l_undef ↔ env.unsat_set k.1.s.world ≠ []) ∧
        out.result ≠ lbool.l_false := by
  obtain ⟨k, hk⟩ := run_rounds_total env s phase
  refine ⟨k, hk, ?_, ?_⟩
  · rw [local_search_eq env s phase k hk]
    by_cases hfit : (env.get_model k.1.s.world).length ≤ k.1.phase.length
    · obtain ⟨ph, hph, _⟩ := copy_model_some _ _ hfit
      simp [hph, hfit]
    · rw [copy_model_none _ _ (by omega)]
      simp [hfit]
  · intro out hout
    obtain ⟨ph, _, rfl⟩ := local_search_some env s phase k hk out hout
    cases hu : env.unsat_set k.1.s.world <;> simp

theorem local_search_result_witness :
    (∃ k, run_rounds (sample_env 2 100) ⟨0, 10⟩ [false, true, true] = some k ∧
      ((local_search (sample_env 2 100) ⟨0, 10⟩ [false, true, true]).isSome = true ↔
        ((sample_env 2 100).get_model k.1.s.world).length ≤ k.1.phase.length) ∧
      ∀ out, local_search (sample_env 2 100) ⟨0, 10⟩ [false, true, true] = some out →
        (out.result = lbool.l_true ↔ (sample_env 2 100).unsat_set k.1.s.world = []) ∧
        (out.result = lbool.l_undef ↔ (sample_env 2 100).unsat_set k.1.s.world ≠ []) ∧
        out.result ≠ lbool.l_false) ∧
    (local_search (sample_env 2 100) ⟨0, 10⟩ [false, true, true]).map Outcome.result =
      some lbool.l_true ∧
    (local_search (sample_env 100 100) ⟨0, 10⟩ [false, true, true]).map Outcome.result =
      some lbool.l_undef :=
  ⟨local_search_result (sample_env 2 100) ⟨0, 10⟩ [false, true, true], by decide, by decide⟩

/-- C2: for every call of `local_search` the number of rounds executed (the number
of calls of the engine's `check`) is at most 30, it equals the number of calls of
`setup_bounds`, and the counter `rounds` is at most 30 at loop exit; the same
bounds hold of all the calls made up to the return. -/
theorem local_search_rounds_bound {σ : Type} (env : Env σ) (s : State σ)
    (phase : List Bool) :
    ∃ k, run_rounds env s phase = some k ∧
      rounds_executed k.2 ≤ 30 ∧
      setup_bounds_calls k.2 = rounds_executed k.2 ∧
      k.1.rounds ≤ 30 ∧
      ∀ out, local_search env s phase = some out →
        rounds_executed out.trace ≤ 30 ∧
        setup_bounds_calls out.trace = rounds_executed out.trace := by
  obtain ⟨k, hk, hrun⟩ := run_rounds_loop env s phase
  obtain ⟨h1, h2⟩ := round_loop_counts env _ _ k hk
  obtain ⟨i1, i2⟩ := local_search_init_counts env s phase
  have hr0 : (local_search_init env s phase).1.rounds = 0 := rfl
  have hb : rounds_executed ((local_search_init env s phase).2 ++ k.2) ≤ 30 := by
    rw [rounds_executed_append, i1]
    have := h1 (by rw [hr0]; exact Nat.zero_le _)
    rw [hr0] at this
    simp only [max_rounds] at this
    omega
  have he : setup_bounds_calls ((local_search_init env s phase).2 ++ k.2) =
      rounds_executed ((local_search_init env s phase).2 ++ k.2) := by
    rw [rounds_executed_append, setup_bounds_calls_append, i1, i2, h2]
  have hcnt : k.1.rounds ≤ 30 :=
    round_loop_rounds_le env _ _ k hk (by rw [hr0]; exact Nat.zero_le _)
  refine ⟨_, hrun, hb, he, hcnt, ?_⟩
  intro out hout
  obtain ⟨ph, _, rfl⟩ := local_search_some env s phase _ hrun out hout
  · show rounds_executed (((local_search_init env s phase).2 ++ k.2) ++ _) ≤ 30 ∧
      setup_bounds_calls (((local_search_init env s phase).2 ++ k.2) ++ _) =
        rounds_executed (((local_search_init env s phase).2 ++ k.2) ++ _)
    have t1 : rounds_executed [Event.unsat_empty (env.unsat_set k.1.s.world).isEmpty,
        Event.pop_child] = 0 := rfl
    have t2 : setup_bounds_calls [Event.unsat_empty (env.unsat_set k.1.s.world).isEmpty,
        Event.pop_child] = 0 := rfl
    rw [rounds_executed_append, setup_bounds_calls_append, he, t1, t2]
    exact ⟨hb, rfl⟩


/-! ## The step budget -/

theorem round_body_push_mem {σ : Type} (env : Env σ) (ls : LoopState σ) (d : Nat)
    (h : Event.rlimit_push d ∈ (round_body env ls).2) :
    d = (setup_bounds env ls.s ls.phase).1.m_max_bool_steps := by
  rw [round_body_trace] at h
  simp only [List.mem_append, List.mem_cons, List.mem_singleton, List.mem_map,
    List.not_mem_nil, or_false] at h
  rcases h with (h | h) | h
  · have := setup_bounds_trace_kind env ls.s ls.phase _ h
    simp [Event.in_setup_bounds] at this
  · rcases h with h | h | h | h
    · cases h
    · cases h; rfl
    · cases h
    · cases h
  · obtain ⟨th, _, h⟩ := h
    cases h

theorem setup_bounds_steps_ge {σ : Type} (env : Env σ) (s : State σ) (phase : List Bool) :
    10000 ≤ (setup_bounds env s phase).1.m_max_bool_steps := by
  simp only [setup_bounds]
  exact Nat.le_max_left _ _

theorem round_loop_push_ge {σ : Type} (env : Env σ) (fuel : Nat) (ls : LoopState σ)
    (k : LoopState σ × List Event) (h : round_loop env fuel ls = some k) :
    ∀ d, Event.rlimit_push d ∈ k.2 → 10000 ≤ d := by
  refine round_loop_induct env (fun _ k => ∀ d, Event.rlimit_push d ∈ k.2 → 10000 ≤ d)
    ?_ ?_ ?_ fuel ls k h
  · intro ls _ d hd
    simp at hd
  · intro ls _ _ _ d hd
    simp only [List.cons_append, List.mem_cons, List.mem_append, List.mem_singleton,
      List.not_mem_nil, or_false] at hd
    rcases hd with hd | hd | hd
    · cases hd
    · rw [round_body_push_mem env _ d hd]
      exact setup_bounds_steps_ge env _ _
    · cases hd
  · intro ls k _ _ _ _ ih d hd
    simp only [List.cons_append, List.mem_cons, List.mem_append] at hd
    rcases hd with hd | hd | hd | hd
    · cases hd
    · rw [round_body_push_mem env _ d hd]
      exact setup_bounds_steps_ge env _ _
    · cases hd
    · exact ih d hd

/-- C4: the step budget that `setup_bounds` computes is at least 10000 (wrap-around
of the product included) and is exactly 10000 when the unsatisfied-clause set is
empty; the budget pushed in a round is the one `setup_bounds` just computed, and
every budget pushed in a call is at least 10000. -/
theorem setup_bounds_budget_floor {σ : Type} (env : Env σ) (s : State σ)
    (phase : List Bool) :
    10000 ≤ (setup_bounds env s phase).1.m_max_bool_steps ∧
      (env.unsat_set (notify_begin env s.world).1 = [] →
        (setup_bounds env s phase).1.m_max_bool_steps = 10000) ∧
      (∀ (ls : LoopState σ) (d : Nat), Event.rlimit_push d ∈ (round_body env ls).2 →
        d = (setup_bounds env ls.s ls.phase).1.m_max_bool_steps) ∧
      ∃ k, run_rounds env s phase = some k ∧
        ∀ d, Event.rlimit_push d ∈ k.2 → 10000 ≤ d := by
  refine ⟨setup_bounds_steps_ge env s phase, ?_, round_body_push_mem env, ?_⟩
  · intro h
    simp [setup_bounds, h, for_each]
  · obtain ⟨k, hk, hrun⟩ := run_rounds_loop env s phase
    refine ⟨_, hrun, ?_⟩
    intro d hd
    show 10000 ≤ d
    have hd2 : Event.rlimit_push d ∈ (local_search_init env s phase).2 ++ k.2 := hd
    rw [List.mem_append] at hd2
    rcases hd2 with hd2 | hd2
    · simp only [local_search_init, register_engine_trace, List.mem_append, List.mem_cons,
        List.mem_map, List.not_mem_nil, or_false] at hd2
      rcases hd2 with (hd2 | hd2 | hd2 | hd2) | ⟨th, _, hd2⟩ <;> cases hd2
    · exact round_loop_push_ge env _ _ k hk d hd2

theorem setup_bounds_budget_floor_witness :
    10000 ≤ (setup_bounds wide_env ⟨(), 0⟩ []).1.m_max_bool_steps ∧
      (setup_bounds (sample_env 0 100) ⟨0, 0⟩ []).1.m_max_bool_steps = 10000 :=
  ⟨(setup_bounds_budget_floor wide_env ⟨(), 0⟩ []).1,
   (setup_bounds_budget_floor (sample_env 0 100) ⟨0, 0⟩ []).2.1 (by decide)⟩

/-! ## Classification of literals -/

theorem vector_get_eq_some {α : Type} (v : List (Option α)) (i : Nat) (e : α) :
    vector_get v i none = some e ↔ v[i]? = some (some e) := by
  unfold vector_get
  by_cases h : i < v.length
  · simp [h, List.getD_eq_getElem?_getD, List.getElem?_eq_getElem h]
  · simp [h, List.getElem?_eq_none (Nat.le_of_not_lt h)]

/-- C8: `is_propositional` is true exactly when the literal's variable has no
expression, or its expression is an uninterpreted constant, or `find` returns no
node for it, and false otherwise; a variable beyond the extent of the map has no
expression. -/
theorem is_propositional_iff {σ : Type} (env : Env σ) (w : σ) (lit : literal) :
    (is_propositional env w lit = true ↔
      (¬ ∃ e, (env.bool_var2expr w)[lit.var]? = some (some e)) ∨
      (∃ e, (env.bool_var2expr w)[lit.var]? = some (some e) ∧
        env.is_uninterp_const e = true) ∨
      (∃ e, (env.bool_var2expr w)[lit.var]? = some (some e) ∧ env.find w e = none)) ∧
    ((env.bool_var2expr w).length ≤ lit.var → is_propositional env w lit = true) := by
  have key : ∀ e, vector_get (env.bool_var2expr w) lit.var none = some e ↔
      (env.bool_var2expr w)[lit.var]? = some (some e) := vector_get_eq_some _ _
  constructor
  · unfold is_propositional
    cases hv : vector_get (env.bool_var2expr w) lit.var none with
    | none =>
      simp only [true_iff]
      left
      rintro ⟨e, he⟩
      rw [← key e, hv] at he
      cases he
    | some e =>
      have he := (key e).1 hv
      simp only [Bool.or_eq_true, Option.isNone_iff_eq_none]
      constructor
      · rintro (h | h)
        · exact Or.inr (Or.inl ⟨e, he, h⟩)
        · exact Or.inr (Or.inr ⟨e, he, h⟩)
      · rintro (h | ⟨e1, he1, h⟩ | ⟨e1, he1, h⟩)
        · exact absurd ⟨e, he⟩ h
        · rw [he] at he1
          cases he1
          exact Or.inl h
        · rw [he] at he1
          cases he1
          exact Or.inr h
  · intro hlen
    unfold is_propositional vector_get
    simp [Nat.not_lt.mpr hlen]

theorem is_propositional_iff_witness :
    is_propositional (sample_env 2 100) 0 ⟨5, false⟩ = true ∧
      is_propositional (sample_env 2 100) 0 ⟨0, true⟩ = true ∧
      is_propositional (sample_env 2 100) 0 ⟨2, false⟩ = true ∧
      is_propositional (sample_env 2 100) 0 ⟨1, false⟩ = false :=
  ⟨(is_propositional_iff (sample_env 2 100) 0 ⟨5, false⟩).2 (by decide),
   (is_propositional_iff (sample_env 2 100) 0 ⟨0, true⟩).1.2
     (Or.inl (by simp [sample_env])),
   (is_propositional_iff (sample_env 2 100) 0 ⟨2, false⟩).1.2
     (Or.inr (Or.inl ⟨8, by decide, by decide⟩)),
   by decide⟩


/-! ## Exit of the round loop -/

theorem getLast?_append_cons_of_ne_nil (x : Event) (a c : List Event) (hc : c ≠ []) :
    (a ++ x :: c).getLast? = c.getLast? := by
  cases c with
  | nil => exact absurd rfl hc
  | cons c1 cs =>
    rw [List.getLast?_append, List.getLast?_cons_cons]
    cases h : (c1 :: cs).getLast? with
    | none => simp at h
    | some z => rfl

theorem round_loop_exit {σ : Type} (env : Env σ) (fuel : Nat) (ls : LoopState σ)
    (h : ((env.inc ls.s.world).1 && decide (ls.rounds < max_rounds)) = false) :
    round_loop env (fuel + 1) ls =
      some (after_inc env ls, [Event.inc (env.inc ls.s.world).1]) := by
  rw [round_loop]
  simp only [h, Bool.false_eq_true, if_false]

/-- C9: no round begins after cancellation is observed: nothing is executed in the
loop after a call of `m.inc()` that reports cancellation, up to the return only the
final test of the unsatisfied-clause set and the release of the child limit
follow, and when the limit is cancelled at entry no round runs (no
`setup_bounds`, no `check`, no refinement step: `phase` is as the caller left it). -/
theorem no_round_after_cancellation {σ : Type} (env : Env σ) (s : State σ)
    (phase : List Bool) :
    ∃ k, run_rounds env s phase = some k ∧
      (∀ pre post, k.2 = pre ++ Event.inc false :: post → post = []) ∧
      (∀ out, local_search env s phase = some out →
        ∀ pre post, out.trace = pre ++ Event.inc false :: post →
          post = [Event.unsat_empty (env.unsat_set k.1.s.world).isEmpty, Event.pop_child]) ∧
      ((env.inc (local_search_init env s phase).1.s.world).1 = false →
        k.2 = (local_search_init env s phase).2 ++ [Event.inc false] ∧
        rounds_executed k.2 = 0 ∧ setup_bounds_calls k.2 = 0 ∧
        (∀ e ∈ k.2, e.in_round_body = false) ∧ k.1.phase = phase) := by
  obtain ⟨k, hk, hrun⟩ := run_rounds_loop env s phase
  obtain ⟨hinc, _⟩ := not_mem_local_search_init env s phase
  obtain ⟨i1, i2⟩ := local_search_init_counts env s phase
  have hafter : ∀ pre post,
      (local_search_init env s phase).2 ++ k.2 = pre ++ Event.inc false :: post →
      post = [] := by
    intro pre post hp
    obtain ⟨q, _, hq2⟩ := split_left _ _ _ pre post (hinc false) hp
    exact (round_loop_nothing_after env _ _ k hk).2 q post hq2
  refine ⟨_, hrun, hafter, ?_, ?_⟩
  · intro out hout pre post hp
    obtain ⟨ph, _, rfl⟩ := local_search_some env s phase _ hrun out hout
    have hp2 : ((local_search_init env s phase).2 ++ k.2) ++
        [Event.unsat_empty (env.unsat_set k.1.s.world).isEmpty, Event.pop_child] =
        pre ++ Event.inc false :: post := hp
    obtain ⟨q, hq1, hq2⟩ := split_right _ _ _ pre post (by simp) hp2
    rw [hafter pre q hq1] at hq2
    exact hq2
  · intro hcancel
    have hk2 : round_loop env (max_rounds + 1) (local_search_init env s phase).1 =
        some (after_inc env (local_search_init env s phase).1, [Event.inc false]) := by
      rw [round_loop_exit env max_rounds _ (by rw [hcancel]; rfl), hcancel]
    rw [hk2] at hk
    simp only [Option.some.injEq] at hk
    subst hk
    refine ⟨rfl, ?_, ?_, ?_, rfl⟩
    · show rounds_executed ((local_search_init env s phase).2 ++ [Event.inc false]) = 0
      rw [rounds_executed_append, i1]
      rfl
    · show setup_bounds_calls ((local_search_init env s phase).2 ++ [Event.inc false]) = 0
      rw [setup_bounds_calls_append, i2]
      rfl
    · intro e he
      have he2 : e ∈ (local_search_init env s phase).2 ++ [Event.inc false] := he
      simp only [local_search_init, register_engine_trace, List.mem_append, List.mem_cons,
        List.mem_map, List.not_mem_nil, or_false] at he2
      rcases he2 with ((he2 | he2 | he2 | he2) | ⟨th, _, he2⟩) | he2 <;> subst he2 <;> rfl

theorem no_round_after_cancellation_witness :
    ∃ k, run_rounds (sample_env 100 0) ⟨0, 10⟩ [false, true, true] = some k ∧
      rounds_executed k.2 = 0 ∧ k.1.phase = [false, true, true] := by
  obtain ⟨k, hk, _, _, h⟩ :=
    no_round_after_cancellation (sample_env 100 0) ⟨0, 10⟩ [false, true, true]
  exact ⟨k, hk, (h (by decide)).2.1, (h (by decide)).2.2.2.2⟩


/-! ## The phase on return -/

theorem copy_model_length (mdl : List lbool) (phase ph : List Bool)
    (h : copy_model mdl phase = some ph) :
    mdl.length ≤ phase.length ∧ ph.length = phase.length := by
  by_cases hfit : mdl.length ≤ phase.length
  · obtain ⟨ph2, hph2, hlen, _⟩ := copy_model_some mdl phase hfit
    rw [hph2] at h
    cases h
    exact ⟨hfit, hlen⟩
  · rw [copy_model_none mdl phase (by omega)] at h
    cases h

theorem round_loop_phase_unchanged {σ : Type} (env : Env σ) (fuel : Nat) (ls : LoopState σ)
    (k : LoopState σ × List Event) (h : round_loop env fuel ls = some k) :
    rounds_executed k.2 = 0 → k.1.phase = ls.phase := by
  refine round_loop_induct env (fun ls k => rounds_executed k.2 = 0 → k.1.phase = ls.phase)
    ?_ ?_ ?_ fuel ls k h
  · intro ls _ _
    rfl
  · intro ls _ _ _ h0
    rw [List.cons_append, rounds_executed_cons, rounds_executed_append,
      rounds_executed_round_body] at h0
    omega
  · intro ls k _ _ _ _ _ h0
    rw [List.cons_append, rounds_executed_cons, rounds_executed_append,
      rounds_executed_round_body] at h0
    omega

theorem theories_local_search_length {σ : Type} (env : Env σ)
    (hth : ∀ th ph w, (env.th_local_search th ph w).1.length = ph.length)
    (w : σ) (phase : List Bool) :
    (theories_local_search env w phase).1.2.length = phase.length := by
  unfold theories_local_search
  exact for_each_invariant _ (fun p : σ × List Bool => p.2.length = phase.length)
    (fun th p hp => by simp only [hth]; exact hp) _ _ rfl

theorem round_loop_phase_length {σ : Type} (env : Env σ)
    (hth : ∀ th ph w, (env.th_local_search th ph w).1.length = ph.length)
    (fuel : Nat) (ls : LoopState σ) (k : LoopState σ × List Event)
    (h : round_loop env fuel ls = some k) : k.1.phase.length = ls.phase.length := by
  refine round_loop_induct env (fun ls k => k.1.phase.length = ls.phase.length)
    ?_ ?_ ?_ fuel ls k h
  · intro ls _
    rfl
  · intro ls _ _ _
    exact theories_local_search_length env hth _ _
  · intro ls k _ _ _ _ ih
    rw [ih]
    exact theories_local_search_length env hth _ _

/-- The final copy, in terms of the loop's exit state `ls` and calls `t`. -/
theorem phase_after_copy {σ : Type} (env : Env σ) (s : State σ) (phase : List Bool)
    (ls : LoopState σ) (t : List Event) (hrun : run_rounds env s phase = some (ls, t)) :
    ((env.get_model ls.s.world).length ≤ ls.phase.length →
        ∃ out, local_search env s phase = some out) ∧
      ∀ out, local_search env s phase = some out →
        (∀ (i : Nat) (m : lbool), (env.get_model ls.s.world)[i]? = some m →
          out.phase[i]? = some (decide (m = lbool.l_true))) ∧
        (∀ i : Nat, (env.get_model ls.s.world).length ≤ i → out.phase[i]? = ls.phase[i]?) := by
  constructor
  · intro hfit
    obtain ⟨ph, hph, _⟩ := copy_model_some _ _ hfit
    rw [local_search_eq env s phase _ hrun]
    have hph2 : copy_model (env.get_model ls.s.world) ls.phase = some ph := hph
    rw [hph2]
    exact ⟨_, rfl⟩
  · intro out hout
    obtain ⟨ph, hph, rfl⟩ := local_search_some env s phase _ hrun out hout
    have hph2 : copy_model (env.get_model ls.s.world) ls.phase = some ph := hph
    obtain ⟨hfit, _⟩ := copy_model_length _ _ _ hph2
    obtain ⟨ph2, hph3, _, hlo, hhi⟩ := copy_model_some _ _ hfit
    rw [hph2] at hph3
    cases hph3
    constructor
    · intro i m hm
      have hi : i < (env.get_model ls.s.world).length := by
        rcases Nat.lt_or_ge i (env.get_model ls.s.world).length with h | h
        · exact h
        · rw [List.getElem?_eq_none h] at hm
          cases hm
      have := hlo i hi
      rw [hm] at this
      simpa using this
    · intro i hi
      exact hhi i hi

/-- C7: when the theory solvers' refinement steps preserve the length of `phase`,
the length of `phase` is the same at loop exit and on return as at entry; the
final copy never changes the length, and all its writes are in range (the call
returns) when the model is no longer than `phase`. -/
theorem phase_length_preserved {σ : Type} (env : Env σ)
    (hth : ∀ th ph w, (env.th_local_search th ph w).1.length = ph.length)
    (s : State σ) (phase : List Bool) :
    ∃ k, run_rounds env s phase = some k ∧
      k.1.phase.length = phase.length ∧
      (∀ out, local_search env s phase = some out → out.phase.length = phase.length) ∧
      (∀ mdl ph ph2, copy_model mdl ph = some ph2 → ph2.length = ph.length) ∧
      ((env.get_model k.1.s.world).length ≤ phase.length →
        ∃ out, local_search env s phase = some out ∧ out.phase.length = phase.length) := by
  obtain ⟨k, hk, hrun⟩ := run_rounds_loop env s phase
  have hlen : k.1.phase.length = phase.length := round_loop_phase_length env hth _ _ k hk
  have hout : ∀ out, local_search env s phase = some out →
      out.phase.length = phase.length := by
    intro out hout
    obtain ⟨ph, hph, rfl⟩ := local_search_some env s phase _ hrun out hout
    have hph2 : copy_model (env.get_model k.1.s.world) k.1.phase = some ph := hph
    show ph.length = phase.length
    rw [(copy_model_length _ _ _ hph2).2, hlen]
  refine ⟨_, hrun, hlen, hout, fun mdl ph ph2 h => (copy_model_length mdl ph ph2 h).2, ?_⟩
  intro hfit
  obtain ⟨ph, hph, _⟩ := copy_model_some (env.get_model k.1.s.world) k.1.phase
    (by rw [hlen]; exact hfit)
  have hsome : ∃ out, local_search env s phase = some out := by
    rw [local_search_eq env s phase _ hrun]
    have hph2 : copy_model (env.get_model k.1.s.world) k.1.phase = some ph := hph
    rw [hph2]
    exact ⟨_, rfl⟩
  obtain ⟨out, ho⟩ := hsome
  exact ⟨out, ho, hout out ho⟩

theorem phase_length_preserved_witness :
    ∃ k, run_rounds (sample_env 2 100) ⟨0, 10⟩ [false, true, true] = some k ∧
      k.1.phase.length = 3 ∧
      (∀ out, local_search (sample_env 2 100) ⟨0, 10⟩ [false, true, true] = some out →
        out.phase.length = 3) := by
  obtain ⟨k, hk, h1, h2, _⟩ := phase_length_preserved (sample_env 2 100)
    (fun _ _ _ => rfl) ⟨0, 10⟩ [false, true, true]
  exact ⟨k, hk, h1, h2⟩


/-! ## The budget formula -/

theorem bounds_received_append (th : Nat) (t1 t2 : List Event) :
    bounds_received th (t1 ++ t2) = bounds_received th t1 ++ bounds_received th t2 := by
  simp [bounds_received]

theorem bounds_received_map_other (th : Nat) (f : Nat → Event)
    (hf : ∀ k, (f k).is_set_bounds = false) (xs : List Nat) :
    bounds_received th (xs.map f) = [] := by
  induction xs with
  | nil => rfl
  | cons x xs ih =>
    have hx := hf x
    have e : bounds_received th (f x :: xs.map f) =
        bounds_received th [f x] ++ bounds_received th (xs.map f) :=
      bounds_received_append th [f x] (xs.map f)
    rw [List.map_cons, e, ih]
    cases hfx : f x <;> rw [hfx] at hx <;> first | rfl | cases hx

theorem bounds_received_range (th : Nat) (n : Option enode) (k : Nat) :
    bounds_received th ((List.range k).map (fun th1 => Event.set_bounds th1 n)) =
      if th < k then [n] else [] := by
  induction k with
  | zero => rfl
  | succ k ih =>
    rw [List.range_succ, List.map_append, bounds_received_append, ih]
    by_cases h1 : th < k
    · have h2 : ¬ k = th := by omega
      have h3 : th < k + 1 := by omega
      simp [bounds_received, h1, h2, h3]
    · by_cases h2 : k = th
      · subst h2
        simp [bounds_received]
      · have h3 : ¬ th < k + 1 := by omega
        simp [bounds_received, h1, h2, h3]

theorem bounds_received_literal_events {σ : Type} (env : Env σ) (w : σ) (th : Nat)
    (hth : th < env.num_solvers) (lits : List literal) :
    bounds_received th (lits.flatMap (literal_events env w)) =
      (lits.filter (fun l => !is_propositional env w l)).map (literal_node env w) := by
  induction lits with
  | nil => rfl
  | cons l ls ih =>
    rw [List.flatMap_cons, bounds_received_append, ih]
    unfold literal_events
    cases hprop : is_propositional env w l with
    | true => simp [List.filter_cons, hprop, bounds_received]
    | false =>
      simp only [Bool.false_eq_true, if_false, m_solvers, bounds_received_range, hth,
        if_true, List.filter_cons, hprop, Bool.not_false, List.map_cons]
      rfl

theorem round_loop_break {σ : Type} (env : Env σ) (fuel : Nat) (ls : LoopState σ)
    (hinc : (env.inc ls.s.world).1 = true) (hlt : ls.rounds < max_rounds)
    (hempty : env.unsat_set (round_body env (after_inc env ls)).1.s.world = []) :
    round_loop env (fuel + 1) ls =
      some ((round_body env (after_inc env ls)).1,
        Event.inc true :: (round_body env (after_inc env ls)).2 ++
          [Event.unsat_empty true]) := by
  rw [round_loop]
  simp only [hinc, hlt, hempty, decide_True, Bool.and_self, if_true, List.isEmpty_nil]

set_option maxRecDepth 20000 in
/-- C12 (as stated, refuted): with the unsatisfied-clause set empty at entry, no
round is executed when the resource limit is cancelled at entry, and 30 rounds are
executed with result `l_undef` when the engine's `check` leaves the satisfied
state. -/
theorem empty_at_entry_not_one_round :
    (sample_env 0 0).unsat_set (loop_entry (sample_env 0 0) ⟨0, 10⟩ [false]).s.world = [] ∧
      (run_rounds (sample_env 0 0) ⟨0, 10⟩ [false]).map (fun k => rounds_executed k.2) =
        some 0 ∧
      restless_env.unsat_set (loop_entry restless_env ⟨0, 10⟩ []).s.world = [] ∧
      (run_rounds restless_env ⟨0, 10⟩ []).map (fun k => rounds_executed k.2) = some 30 ∧
      (local_search restless_env ⟨0, 10⟩ []).map Outcome.result = some lbool.l_undef :=
  ⟨by decide, by decide, by decide, by decide, by decide⟩

/-- C12 (amended): for every call in which `m.inc()` allows work at the first
evaluation of the loop condition and the engine's unsatisfied-clause set is empty
at the end of the first round, exactly one round is executed, the loop ends with
that round's convergence test, and the result, when the call returns, is
`l_true`; the call returns when the model is no longer than `phase`. -/
theorem converges_in_first_round {σ : Type} (env : Env σ) (s : State σ)
    (phase : List Bool)
    (hinc : (env.inc (loop_entry env s phase).s.world).1 = true)
    (hempty : env.unsat_set
      (round_body env (after_inc env (loop_entry env s phase))).1.s.world = []) :
    ∃ k, run_rounds env s phase = some k ∧
      rounds_executed k.2 = 1 ∧
      k.2.getLast? = some (Event.unsat_empty true) ∧
      env.unsat_set k.1.s.world = [] ∧
      ((env.get_model k.1.s.world).length ≤ k.1.phase.length →
        ∃ out, local_search env s phase = some out) ∧
      ∀ out, local_search env s phase = some out → out.result = lbool.l_true := by
  have hloop := round_loop_break env max_rounds (loop_entry env s phase) hinc
    (by show 0 < max_rounds; decide) hempty
  have hrun : run_rounds env s phase =
      some ((round_body env (after_inc env (loop_entry env s phase))).1,
        (local_search_init env s phase).2 ++
          (Event.inc true :: (round_body env (after_inc env (loop_entry env s phase))).2 ++
            [Event.unsat_empty true])) := by
    unfold loop_entry at hloop
    simp only [run_rounds, hloop, loop_entry]
  refine ⟨_, hrun, ?_, ?_, hempty, ?_, ?_⟩
  · show rounds_executed ((local_search_init env s phase).2 ++
      (Event.inc true :: (round_body env (after_inc env (loop_entry env s phase))).2 ++
        [Event.unsat_empty true])) = 1
    rw [rounds_executed_append, (local_search_init_counts env s phase).1, List.cons_append,
      rounds_executed_cons, rounds_executed_append, rounds_executed_round_body]
    rfl
  · show ((local_search_init env s phase).2 ++
      (Event.inc true :: (round_body env (after_inc env (loop_entry env s phase))).2 ++
        [Event.unsat_empty true])).getLast? = _
    rw [← List.append_assoc, List.getLast?_concat]
  · intro hfit
    obtain ⟨ph, hph, _⟩ := copy_model_some _ _ hfit
    rw [local_search_eq env s phase _ hrun]
    have hph2 : copy_model
        (env.get_model (round_body env (after_inc env (loop_entry env s phase))).1.s.world)
        (round_body env (after_inc env (loop_entry env s phase))).1.phase = some ph := hph
    rw [hph2]
    exact ⟨_, rfl⟩
  · intro out hout
    obtain ⟨ph, _, rfl⟩ := local_search_some env s phase _ hrun out hout
    show (if (env.unsat_set
      (round_body env (after_inc env (loop_entry env s phase))).1.s.world).isEmpty = true
      then lbool.l_true else lbool.l_undef) = lbool.l_true
    rw [hempty]
    rfl

theorem converges_in_first_round_witness :
    ∃ k, run_rounds (sample_env 0 100) ⟨0, 10⟩ [false, true, true] = some k ∧
      rounds_executed k.2 = 1 ∧
      ∀ out, local_search (sample_env 0 100) ⟨0, 10⟩ [false, true, true] = some out →
        out.result = lbool.l_true := by
  obtain ⟨k, hk, h1, _, _, _, h2⟩ := converges_in_first_round (sample_env 0 100) ⟨0, 10⟩
    [false, true, true] (by decide) (by decide)
  exact ⟨k, hk, h1, h2⟩


/-! ## Thirty rounds without convergence -/

/-- When `m.inc()` leaves the unsatisfied-clause set alone, a run of the loop that
ends at a condition with `m.inc()` true (the round bound) exits with the set
non-empty. -/
theorem round_loop_bound_exit_state {σ : Type} (env : Env σ)
    (hinc : ∀ w, env.unsat_set (env.inc w).2 = env.unsat_set w)
    (fuel : Nat) (ls : LoopState σ) (k : LoopState σ × List Event)
    (h : round_loop env fuel ls = some k) :
    (ls.rounds < max_rounds ∨ env.unsat_set ls.s.world ≠ []) →
      k.2.getLast? = some (Event.inc true) → env.unsat_set k.1.s.world ≠ [] := by
  refine round_loop_induct env
    (fun ls k => (ls.rounds < max_rounds ∨ env.unsat_set ls.s.world ≠ []) →
      k.2.getLast? = some (Event.inc true) → env.unsat_set k.1.s.world ≠ []) ?_ ?_ ?_
    fuel ls k h
  · intro ls hc hor hl
    have hi : (env.inc ls.s.world).1 = true := by
      simp only [List.getLast?_singleton, Option.some.injEq, Event.inc.injEq] at hl
      exact hl
    rw [hi] at hc
    simp only [Bool.true_and, decide_eq_false_iff_not] at hc
    rcases hor with hor | hor
    · exact absurd hor hc
    · show env.unsat_set (env.inc ls.s.world).2 ≠ []
      rw [hinc]
      exact hor
  · intro ls _ _ _ _ hl
    have hl2 : (Event.inc true :: (round_body env (after_inc env ls)).2 ++
        [Event.unsat_empty true]).getLast? = some (Event.inc true) := hl
    rw [List.getLast?_concat] at hl2
    cases hl2
  · intro ls k _ _ he hrun ih _ hl
    obtain ⟨fuel1, hf⟩ := hrun
    obtain ⟨rest, hrest, _⟩ := round_loop_head env fuel1 _ k hf
    have hne : k.2 ≠ [] := by rw [hrest]; simp
    have e := getLast?_append_cons_of_ne_nil (Event.unsat_empty false)
      (Event.inc true :: (round_body env (after_inc env ls)).2) k.2 hne
    apply ih
    · right
      intro h0
      have h1 : env.unsat_set (round_body env (after_inc env ls)).1.s.world = [] := h0
      rw [h1] at he
      cases he
    · rw [← e]
      exact hl

/-- C13: for every call in which `m.inc()` never reports cancellation and every
convergence test finds the unsatisfied-clause set non-empty (`m.inc()` itself
leaving that set alone), exactly 30 rounds are executed, the set is non-empty at
loop exit, the call returns when the model is no longer than `phase`, and on
return the result is `l_undef` and `phase` holds `model[i] == l_true` at every
index the model covers. -/
theorem thirty_rounds_without_convergence {σ : Type} (env : Env σ)
    (hinc : ∀ w, env.unsat_set (env.inc w).2 = env.unsat_set w)
    (s : State σ) (phase : List Bool) :
    ∃ k, run_rounds env s phase = some k ∧
      (Event.inc false ∉ k.2 → Event.unsat_empty true ∉ k.2 →
        rounds_executed k.2 = 30 ∧
        env.unsat_set k.1.s.world ≠ [] ∧
        ((env.get_model k.1.s.world).length ≤ k.1.phase.length →
          ∃ out, local_search env s phase = some out) ∧
        ∀ out, local_search env s phase = some out →
          out.result = lbool.l_undef ∧
          ∀ (i : Nat) (m : lbool), (env.get_model k.1.s.world)[i]? = some m →
            out.phase[i]? = some (decide (m = lbool.l_true))) := by
  obtain ⟨k, hk, hrun⟩ := run_rounds_loop env s phase
  obtain ⟨i1, _⟩ := local_search_init_counts env s phase
  obtain ⟨rest, hrest, _⟩ := round_loop_head env _ _ k hk
  have hne : k.2 ≠ [] := by rw [hrest]; simp
  refine ⟨_, hrun, ?_⟩
  intro hnc hnu
  have hnc2 : Event.inc false ∉ k.2 := fun hm => hnc (List.mem_append_right _ hm)
  have hnu2 : Event.unsat_empty true ∉ k.2 := fun hm => hnu (List.mem_append_right _ hm)
  have hexit : k.2.getLast? = some (Event.inc true) ∧ rounds_executed k.2 = 30 := by
    rcases round_loop_exit_reason env _ _ k hk (Nat.zero_le _) with h1 | h1 | ⟨h1, h2⟩
    · exact absurd (List.mem_of_getLast?_eq_some h1) hnu2
    · exact absurd (List.mem_of_getLast?_eq_some h1) hnc2
    · refine ⟨h1, ?_⟩
      have h3 : 0 + rounds_executed k.2 = 30 := h2
      omega
  have hstate : env.unsat_set k.1.s.world ≠ [] :=
    round_loop_bound_exit_state env hinc _ _ k hk
      (Or.inl (by show 0 < max_rounds; decide)) hexit.1
  have hall := phase_after_copy env s phase k.1 ((local_search_init env s phase).2 ++ k.2) hrun
  refine ⟨?_, hstate, hall.1, ?_⟩
  · show rounds_executed ((local_search_init env s phase).2 ++ k.2) = 30
    rw [rounds_executed_append, i1, hexit.2]
  · intro out hout
    refine ⟨?_, (hall.2 out hout).1⟩
    obtain ⟨ph, _, rfl⟩ := local_search_some env s phase _ hrun out hout
    show (if (env.unsat_set k.1.s.world).isEmpty = true then lbool.l_true
      else lbool.l_undef) = lbool.l_undef
    cases hu : env.unsat_set k.1.s.world with
    | nil => exact absurd hu hstate
    | cons c cs => rfl

set_option maxRecDepth 20000 in
theorem thirty_rounds_without_convergence_witness :
    ∃ k, run_rounds (sample_env 100 100) ⟨0, 10⟩ [false, true, true] = some k ∧
      rounds_executed k.2 = 30 ∧
      ∀ out, local_search (sample_env 100 100) ⟨0, 10⟩ [false, true, true] = some out →
        out.result = lbool.l_undef := by
  obtain ⟨k, hk, h⟩ := thirty_rounds_without_convergence (sample_env 100 100)
    (fun _ => rfl) ⟨0, 10⟩ [false, true, true]
  have hk2 : (run_rounds (sample_env 100 100) ⟨0, 10⟩ [false, true, true]).map
      (fun k => decide (Event.inc false ∉ k.2 ∧ Event.unsat_empty true ∉ k.2)) =
      some true := by decide
  rw [hk] at hk2
  simp only [Option.map, Option.some.injEq, decide_eq_true_eq] at hk2
  obtain ⟨h1, _, _, h2⟩ := h hk2.1 hk2.2
  exact ⟨k, hk, h1, fun out hout => (h2 out hout).1⟩


/-! ## Registration of the engine -/

theorem registered_engine_append_other (th : Nat) (t1 t2 : List Event)
    (h : ∀ e ∈ t2, e.is_set_bool_search = false) :
    registered_engine th (t1 ++ t2) = registered_engine th t1 := by
  unfold registered_engine
  rw [List.filterMap_append]
  have h2 : t2.filterMap (fun e =>
      match e with
      | Event.set_bool_search th1 b => if th1 = th then some b else none
      | _ => none) = [] := by
    rw [List.filterMap_eq_nil_iff]
    intro e he
    have := h e he
    cases e <;> simp_all [Event.is_set_bool_search]
  rw [h2, List.append_nil]

theorem registrations_range (th : Nat) (n : Nat) :
    ((List.range n).map (fun k => Event.set_bool_search k true)).filterMap (fun e =>
      match e with
      | Event.set_bool_search th1 b => if th1 = th then some b else none
      | _ => none) = if th < n then [true] else [] := by
  induction n with
  | zero => rfl
  | succ n ih =>
    rw [List.range_succ, List.map_append, List.filterMap_append, ih]
    by_cases h1 : th < n
    · have h2 : ¬ n = th := by omega
      have h3 : th < n + 1 := by omega
      simp [h1, h2, h3]
    · by_cases h2 : n = th
      · subst h2
        simp
      · have h3 : ¬ th < n + 1 := by omega
        simp [h1, h2, h3]

theorem registered_engine_init {σ : Type} (env : Env σ) (s : State σ) (phase : List Bool)
    (th : Nat) (hth : th < env.num_solvers) :
    registered_engine th (local_search_init env s phase).2 = some true := by
  simp only [local_search_init, register_engine_trace, registered_engine, m_solvers,
    List.filterMap_append, registrations_range, hth, if_true]
  rw [List.getLast?_concat]

theorem round_loop_no_registration {σ : Type} (env : Env σ) (fuel : Nat) (ls : LoopState σ)
    (k : LoopState σ × List Event) (h : round_loop env fuel ls = some k) :
    ∀ e ∈ k.2, e.is_set_bool_search = false := by
  have hbody : ∀ (ls : LoopState σ) (e : Event), e ∈ (round_body env ls).2 →
      e.is_set_bool_search = false := by
    intro ls e he
    have := round_body_trace_kind env ls e he
    cases e <;> simp_all [Event.in_round_body, Event.is_set_bool_search]
  refine round_loop_induct env (fun _ k => ∀ e ∈ k.2, e.is_set_bool_search = false)
    ?_ ?_ ?_ fuel ls k h
  · intro ls _ e he
    simp only [List.mem_singleton] at he
    subst he
    rfl
  · intro ls _ _ _ e he
    simp only [List.cons_append, List.mem_cons, List.mem_append, List.mem_singleton,
      List.not_mem_nil, or_false] at he
    rcases he with he | he | he
    · subst he; rfl
    · exact hbody _ e he
    · subst he; rfl
  · intro ls k _ _ _ _ ih e he
    simp only [List.cons_append, List.mem_cons, List.mem_append] at he
    rcases he with he | he | he | he
    · subst he; rfl
    · exact hbody _ e he
    · subst he; rfl
    · exact ih e he

/-- C14 (as stated, refuted): on return from `local_search` theory solver 0 still
has the engine of the call registered. -/
theorem engine_still_registered_on_return :
    (local_search (sample_env 2 100) ⟨0, 10⟩ [false, true, true]).map
        (fun out => registered_engine 0 out.trace) = some (some true) ∧
      (local_search (sample_env 2 100) ⟨0, 10⟩ [false, true, true]).map
        (fun out => out.trace.countP Event.is_set_bool_search) = some 2 := by
  decide

/-- C14 (amended): every theory solver has the engine of the call registered
(`set_bool_search` with the engine) before the first round, and `local_search`
never unregisters it: no further `set_bool_search` is made during the rounds or
before the return, so on return every theory solver still has the engine
registered. -/
theorem engine_registered_throughout {σ : Type} (env : Env σ) (s : State σ)
    (phase : List Bool) (th : Nat) (hth : th < env.num_solvers) :
    registered_engine th (local_search_init env s phase).2 = some true ∧
      ∃ k, round_loop env (max_rounds + 1) (local_search_init env s phase).1 = some k ∧
        run_rounds env s phase = some (k.1, (local_search_init env s phase).2 ++ k.2) ∧
        (∀ e ∈ k.2, e.is_set_bool_search = false) ∧
        registered_engine th ((local_search_init env s phase).2 ++ k.2) = some true ∧
        ∀ out, local_search env s phase = some out →
          registered_engine th out.trace = some true ∧
          Event.set_bool_search th false ∉ out.trace := by
  obtain ⟨k, hk, hrun⟩ := run_rounds_loop env s phase
  have hinit := registered_engine_init env s phase th hth
  have hloop := round_loop_no_registration env _ _ k hk
  have hreg : registered_engine th ((local_search_init env s phase).2 ++ k.2) = some true := by
    rw [registered_engine_append_other th _ _ hloop, hinit]
  refine ⟨hinit, k, hk, hrun, hloop, hreg, ?_⟩
  intro out hout
  obtain ⟨ph, _, rfl⟩ := local_search_some env s phase _ hrun out hout
  constructor
  · show registered_engine th (((local_search_init env s phase).2 ++ k.2) ++
      [Event.unsat_empty (env.unsat_set k.1.s.world).isEmpty, Event.pop_child]) = some true
    rw [registered_engine_append_other th _ _ (by
      intro e he
      simp only [List.mem_cons, List.mem_singleton, List.not_mem_nil, or_false] at he
      rcases he with he | he <;> subst he <;> rfl), hreg]
  · intro hm
    have hm2 : Event.set_bool_search th false ∈ ((local_search_init env s phase).2 ++ k.2) ++
      [Event.unsat_empty (env.unsat_set k.1.s.world).isEmpty, Event.pop_child] := hm
    simp only [List.mem_append, List.mem_cons, List.mem_singleton, List.not_mem_nil,
      or_false] at hm2
    rcases hm2 with (hm2 | hm2) | hm2
    · simp only [local_search_init, register_engine_trace, List.mem_append, List.mem_cons,
        List.mem_map, List.not_mem_nil, or_false] at hm2
      rcases hm2 with (hm2 | hm2 | hm2 | hm2) | ⟨th1, _, hm2⟩ <;> cases hm2
    · have := hloop _ hm2
      cases this
    · rcases hm2 with hm2 | hm2 <;> cases hm2

theorem engine_registered_throughout_witness :
    registered_engine 1 (local_search_init (sample_env 2 100) ⟨0, 10⟩ [false]).2 =
      some true :=
  (engine_registered_throughout (sample_env 2 100) ⟨0, 10⟩ [false] 1 (by decide)).1


/-! ## Scopes of the step budget -/

theorem rlimit_depth_cons_other (d : Nat) (e : Event) (t : List Event)
    (he : e.is_rlimit = false) : rlimit_depth d (e :: t) = rlimit_depth d t := by
  cases e <;> first | rfl | cases he

theorem rlimit_depth_append (t1 t2 : List Event) :
    ∀ d, rlimit_depth d (t1 ++ t2) = (rlimit_depth d t1).bind (fun d1 => rlimit_depth d1 t2) := by
  induction t1 with
  | nil => intro d; rfl
  | cons e t ih =>
    intro d
    by_cases he : e.is_rlimit = false
    · rw [List.cons_append, rlimit_depth_cons_other d e _ he, rlimit_depth_cons_other d e _ he]
      exact ih d
    · cases e with
      | rlimit_push b => exact ih (d + 1)
      | rlimit_pop =>
        by_cases hd : d = 0
        · simp [rlimit_depth, hd]
        · simp only [List.cons_append, rlimit_depth, hd, if_false]
          exact ih (d - 1)
      | _ => exact absurd rfl he

theorem rlimit_depth_neutral (t : List Event) (h : ∀ e ∈ t, e.is_rlimit = false) (d : Nat) :
    rlimit_depth d t = some d := by
  induction t with
  | nil => rfl
  | cons e t ih =>
    rw [rlimit_depth_cons_other d e t (h e (List.mem_cons_self e t))]
    exact ih (fun e1 he1 => h e1 (List.mem_cons_of_mem e he1))

theorem setup_bounds_no_rlimit {σ : Type} (env : Env σ) (s : State σ) (phase : List Bool) :
    ∀ e ∈ (setup_bounds env s phase).2, e.is_rlimit = false := by
  intro e he
  have := setup_bounds_trace_kind env s phase e he
  cases e <;> simp_all [Event.in_setup_bounds, Event.is_rlimit]

theorem map_th_local_search_no_rlimit (xs : List Nat) :
    ∀ e ∈ xs.map Event.th_local_search, e.is_rlimit = false := by
  intro e he
  rw [List.mem_map] at he
  obtain ⟨th, _, rfl⟩ := he
  rfl

theorem rlimit_depth_round_body {σ : Type} (env : Env σ) (ls : LoopState σ) (d : Nat) :
    rlimit_depth d (round_body env ls).2 = some d := by
  rw [round_body_trace, rlimit_depth_append, rlimit_depth_append,
    rlimit_depth_neutral _ (setup_bounds_no_rlimit env ls.s ls.phase) d]
  simp only [Option.bind]
  have hmid : rlimit_depth d
      [Event.verbose_assumptions 0,
       Event.rlimit_push (setup_bounds env ls.s ls.phase).1.m_max_bool_steps,
       Event.check []
         (env.check [] (env.rlimit_push (setup_bounds env ls.s ls.phase).1.m_max_bool_steps
           (setup_bounds env ls.s ls.phase).1.world)).1,
       Event.rlimit_pop] = some d := by
    simp [rlimit_depth]
  rw [hmid]
  exact rlimit_depth_neutral _ (map_th_local_search_no_rlimit _) d

theorem rlimit_depth_at_check {σ : Type} (env : Env σ) (ls : LoopState σ) (d : Nat) :
    rlimit_depth d ((setup_bounds env ls.s ls.phase).2 ++
      [Event.verbose_assumptions 0,
       Event.rlimit_push (setup_bounds env ls.s ls.phase).1.m_max_bool_steps]) =
      some (d + 1) := by
  rw [rlimit_depth_append,
    rlimit_depth_neutral _ (setup_bounds_no_rlimit env ls.s ls.phase) d]
  rfl

theorem rlimit_depth_inc_round_body {σ : Type} (env : Env σ) (ls : LoopState σ) (d : Nat) :
    rlimit_depth d (Event.inc true :: (round_body env ls).2) = some d := by
  rw [rlimit_depth_cons_other d (Event.inc true) _ rfl]
  exact rlimit_depth_round_body env ls d

/-- Along a run of the loop the depth of the engine's resource-limit stack is
restored at every convergence test and at loop exit. -/
theorem round_loop_depth {σ : Type} (env : Env σ) (fuel : Nat) (ls : LoopState σ)
    (k : LoopState σ × List Event) (h : round_loop env fuel ls = some k) :
    ∀ d, rlimit_depth d k.2 = some d ∧
      ∀ pre post b, k.2 = pre ++ Event.unsat_empty b :: post →
        rlimit_depth d pre = some d := by
  refine round_loop_induct env
    (fun _ k => ∀ d, rlimit_depth d k.2 = some d ∧
      ∀ pre post b, k.2 = pre ++ Event.unsat_empty b :: post →
        rlimit_depth d pre = some d) ?_ ?_ ?_ fuel ls k h
  · intro ls _ d
    refine ⟨rfl, ?_⟩
    intro pre post b hp
    cases pre with
    | nil => cases hp
    | cons p ps =>
      simp only [List.cons_append, List.cons.injEq] at hp
      cases ps <;> cases hp.2
  · intro ls _ _ _ d
    constructor
    · show rlimit_depth d ((Event.inc true :: (round_body env (after_inc env ls)).2) ++
        [Event.unsat_empty true]) = some d
      rw [rlimit_depth_append, rlimit_depth_inc_round_body]
      rfl
    · intro pre post b hp
      have hp2 : (Event.inc true :: (round_body env (after_inc env ls)).2) ++
          Event.unsat_empty true :: [] = pre ++ Event.unsat_empty b :: post := hp
      rcases split_cases _ _ _ _ pre post
          (not_mem_inc_round_body env _ (Event.unsat_empty b) rfl (by simp)) hp2
        with ⟨hpre, _, _⟩ | ⟨q, _, hq2⟩
      · rw [hpre]
        exact rlimit_depth_inc_round_body env _ d
      · cases q <;> cases hq2
  · intro ls k _ _ _ _ ih d
    constructor
    · show rlimit_depth d ((Event.inc true :: (round_body env (after_inc env ls)).2) ++
        Event.unsat_empty false :: k.2) = some d
      rw [rlimit_depth_append, rlimit_depth_inc_round_body]
      show rlimit_depth d (Event.unsat_empty false :: k.2) = some d
      rw [rlimit_depth_cons_other d (Event.unsat_empty false) _ rfl]
      exact (ih d).1
    · intro pre post b hp
      have hp2 : (Event.inc true :: (round_body env (after_inc env ls)).2) ++
          Event.unsat_empty false :: k.2 = pre ++ Event.unsat_empty b :: post := hp
      rcases split_cases _ _ _ _ pre post
          (not_mem_inc_round_body env _ (Event.unsat_empty b) rfl (by simp)) hp2
        with ⟨hpre, _, _⟩ | ⟨q, hq1, hq2⟩
      · rw [hpre]
        exact rlimit_depth_inc_round_body env _ d
      · rw [hq1, rlimit_depth_append, rlimit_depth_inc_round_body]
        show rlimit_depth d (Event.unsat_empty false :: q) = some d
        rw [rlimit_depth_cons_other d (Event.unsat_empty false) _ rfl]
        exact (ih d).2 q post b hq2

theorem local_search_init_no_rlimit {σ : Type} (env : Env σ) (s : State σ)
    (phase : List Bool) : ∀ e ∈ (local_search_init env s phase).2, e.is_rlimit = false := by
  intro e he
  simp only [local_search_init, register_engine_trace, List.mem_append, List.mem_cons,
    List.mem_map, List.not_mem_nil, or_false] at he
  rcases he with (he | he | he | he) | ⟨th, _, he⟩ <;> subst he <;> rfl

/-- C15: in every round the engine's resource limit is pushed once, with the
budget that `setup_bounds` has just computed, the engine's `check` is called
inside that scope (one level deeper), and the scope is popped once right after
`check` and before the refinement steps; so the depth of the resource-limit stack
is restored at the end of every round, at loop exit and at return. -/
theorem budget_scope_discipline {σ : Type} (env : Env σ) (s : State σ)
    (phase : List Bool) :
    (∀ (ls : LoopState σ) (d : Nat),
      (round_body env ls).2 =
        (setup_bounds env ls.s ls.phase).2 ++
          [Event.verbose_assumptions 0,
           Event.rlimit_push (setup_bounds env ls.s ls.phase).1.m_max_bool_steps,
           Event.check []
             (env.check [] (env.rlimit_push (setup_bounds env ls.s ls.phase).1.m_max_bool_steps
               (setup_bounds env ls.s ls.phase).1.world)).1,
           Event.rlimit_pop] ++
          (m_solvers env).map Event.th_local_search ∧
      (∀ e ∈ (setup_bounds env ls.s ls.phase).2, e.is_rlimit = false) ∧
      (∀ e ∈ (m_solvers env).map Event.th_local_search, e.is_rlimit = false) ∧
      rlimit_depth d ((setup_bounds env ls.s ls.phase).2 ++
        [Event.verbose_assumptions 0,
         Event.rlimit_push (setup_bounds env ls.s ls.phase).1.m_max_bool_steps]) =
        some (d + 1) ∧
      rlimit_depth d (round_body env ls).2 = some d) ∧
    ∀ d, ∃ k, run_rounds env s phase = some k ∧
      rlimit_depth d k.2 = some d ∧
      (∀ pre post b, k.2 = pre ++ Event.unsat_empty b :: post →
        rlimit_depth d pre = some d) ∧
      ∀ out, local_search env s phase = some out → rlimit_depth d out.trace = some d := by
  constructor
  · intro ls d
    exact ⟨round_body_trace env ls, setup_bounds_no_rlimit env ls.s ls.phase,
      map_th_local_search_no_rlimit _, rlimit_depth_at_check env ls d,
      rlimit_depth_round_body env ls d⟩
  · intro d
    obtain ⟨k, hk, hrun⟩ := run_rounds_loop env s phase
    obtain ⟨h1, h2⟩ := round_loop_depth env _ _ k hk d
    obtain ⟨_, hue⟩ := not_mem_local_search_init env s phase
    have hinit := rlimit_depth_neutral _ (local_search_init_no_rlimit env s phase) d
    have hall : rlimit_depth d ((local_search_init env s phase).2 ++ k.2) = some d := by
      rw [rlimit_depth_append, hinit]
      exact h1
    refine ⟨_, hrun, hall, ?_, ?_⟩
    · intro pre post b hp
      obtain ⟨q, hq1, hq2⟩ := split_left _ _ _ pre post (hue b) hp
      rw [hq1, rlimit_depth_append, hinit]
      exact h2 q post b hq2
    · intro out hout
      obtain ⟨ph, _, rfl⟩ := local_search_some env s phase _ hrun out hout
      show rlimit_depth d (((local_search_init env s phase).2 ++ k.2) ++
        [Event.unsat_empty (env.unsat_set k.1.s.world).isEmpty, Event.pop_child]) = some d
      rw [rlimit_depth_append, hall]
      rfl


/-! ## Classification depends on the variable only -/

/-- C16: for a fixed state of the variable-to-expression map and of the
congruence structure, `is_propositional` depends only on the variable of the
literal (both polarities get the same classification) and only on those two parts
of the state; it is a function of its arguments, and where `setup_bounds` calls
it on a propositional literal the world is left as it is and no call is made. -/
theorem is_propositional_var_only {σ : Type} (env : Env σ) (w : σ) :
    (∀ l1 l2 : literal, l1.var = l2.var →
      is_propositional env w l1 = is_propositional env w l2) ∧
    (∀ v : Nat, is_propositional env w ⟨v, true⟩ = is_propositional env w ⟨v, false⟩) ∧
    (∀ w1 : σ, env.bool_var2expr w1 = env.bool_var2expr w →
      (∀ e, env.find w1 e = env.find w e) →
      ∀ l, is_propositional env w1 l = is_propositional env w l) ∧
    (∀ (l : literal) (c : Counters σ), is_propositional env c.world l = true →
      (count_literal env l c).1.world = c.world ∧ (count_literal env l c).2 = []) := by
  refine ⟨?_, ?_, ?_, ?_⟩
  · intro l1 l2 h
    unfold is_propositional
    rw [h]
  · intro v
    rfl
  · intro w1 h1 h2 l
    unfold is_propositional
    rw [h1]
    cases vector_get (env.bool_var2expr w) l.var none with
    | none => rfl
    | some e => simp only [h2]
  · intro l c h
    unfold count_literal
    rw [h]
    exact ⟨rfl, rfl⟩

theorem is_propositional_var_only_witness :
    is_propositional (sample_env 2 100) 0 ⟨1, true⟩ =
      is_propositional (sample_env 2 100) 0 ⟨1, false⟩ ∧
    is_propositional (sample_env 2 100) 5 ⟨1, true⟩ =
      is_propositional (sample_env 2 100) 0 ⟨1, true⟩ :=
  ⟨(is_propositional_var_only (sample_env 2 100) 0).1 ⟨1, true⟩ ⟨1, false⟩ rfl,
   (is_propositional_var_only (sample_env 2 100) 0).2.2.1 5 rfl (fun _ => rfl) ⟨1, true⟩⟩

/-! ## The assumption set -/

theorem round_body_check_mem {σ : Type} (env : Env σ) (ls : LoopState σ)
    (a : List literal) (r : lbool) (h : Event.check a r ∈ (round_body env ls).2) :
    a = [] := by
  rw [round_body_trace] at h
  simp only [List.mem_append, List.mem_cons, List.mem_singleton, List.mem_map,
    List.not_mem_nil, or_false] at h
  rcases h with (h | h) | h
  · have := setup_bounds_trace_kind env ls.s ls.phase _ h
    simp [Event.in_setup_bounds] at this
  · rcases h with h | h | h | h
    · cases h
    · cases h
    · cases h; rfl
    · cases h
  · obtain ⟨th, _, h⟩ := h
    cases h

theorem round_body_verbose_assumptions_mem {σ : Type} (env : Env σ) (ls : LoopState σ)
    (n : Nat) (h : Event.verbose_assumptions n ∈ (round_body env ls).2) : n = 0 := by
  rw [round_body_trace] at h
  simp only [List.mem_append, List.mem_cons, List.mem_singleton, List.mem_map,
    List.not_mem_nil, or_false] at h
  rcases h with (h | h) | h
  · have := setup_bounds_trace_kind env ls.s ls.phase _ h
    simp [Event.in_setup_bounds] at this
  · rcases h with h | h | h | h
    · cases h; rfl
    · cases h
    · cases h
    · cases h
  · obtain ⟨th, _, h⟩ := h
    cases h

theorem round_loop_assumptions {σ : Type} (env : Env σ) (fuel : Nat) (ls : LoopState σ)
    (k : LoopState σ × List Event) (h : round_loop env fuel ls = some k) :
    (∀ a r, Event.check a r ∈ k.2 → a = []) ∧
      (∀ n, Event.verbose_assumptions n ∈ k.2 → n = 0) := by
  refine round_loop_induct env
    (fun _ k => (∀ a r, Event.check a r ∈ k.2 → a = []) ∧
      (∀ n, Event.verbose_assumptions n ∈ k.2 → n = 0)) ?_ ?_ ?_ fuel ls k h
  · intro ls _
    constructor
    · intro a r hm
      simp at hm
    · intro n hm
      simp at hm
  · intro ls _ _ _
    constructor
    · intro a r hm
      simp only [List.cons_append, List.mem_cons, List.mem_append, List.mem_singleton,
        List.not_mem_nil, or_false] at hm
      rcases hm with hm | hm | hm
      · cases hm
      · exact round_body_check_mem env _ a r hm
      · cases hm
    · intro n hm
      simp only [List.cons_append, List.mem_cons, List.mem_append, List.mem_singleton,
        List.not_mem_nil, or_false] at hm
      rcases hm with hm | hm | hm
      · cases hm
      · exact round_body_verbose_assumptions_mem env _ n hm
      · cases hm
  · intro ls k _ _ _ _ ih
    constructor
    · intro a r hm
      simp only [List.cons_append, List.mem_cons, List.mem_append] at hm
      rcases hm with hm | hm | hm | hm
      · cases hm
      · exact round_body_check_mem env _ a r hm
      · cases hm
      · exact ih.1 a r hm
    · intro n hm
      simp only [List.cons_append, List.mem_cons, List.mem_append] at hm
      rcases hm with hm | hm | hm | hm
      · cases hm
      · exact round_body_verbose_assumptions_mem env _ n hm
      · cases hm
      · exact ih.2 n hm

/-- C17: in every round of every call the assumption set passed to the engine's
`check` is empty and the reported number of assumptions is 0, whatever the phase
and the classification of the variables; there is one such `check` per round. -/
theorem assumptions_always_empty {σ : Type} (env : Env σ) (s : State σ)
    (phase : List Bool) :
    (∀ (ls : LoopState σ) (a : List literal) (r : lbool),
      Event.check a r ∈ (round_body env ls).2 → a = []) ∧
    ∃ k, run_rounds env s phase = some k ∧
      (∀ a r, Event.check a r ∈ k.2 → a = [] ∧ a.length = 0) ∧
      (∀ n, Event.verbose_assumptions n ∈ k.2 → n = 0) ∧
      ∀ out, local_search env s phase = some out →
        ∀ a r, Event.check a r ∈ out.trace → a = [] := by
  refine ⟨round_body_check_mem env, ?_⟩
  obtain ⟨k, hk, hrun⟩ := run_rounds_loop env s phase
  obtain ⟨h1, h2⟩ := round_loop_assumptions env _ _ k hk
  have hc : ∀ a r, Event.check a r ∈ (local_search_init env s phase).2 ++ k.2 → a = [] := by
    intro a r hm
    rw [List.mem_append] at hm
    rcases hm with hm | hm
    · simp only [local_search_init, register_engine_trace, List.mem_append, List.mem_cons,
        List.mem_map, List.not_mem_nil, or_false] at hm
      rcases hm with (hm | hm | hm | hm) | ⟨th, _, hm⟩ <;> cases hm
    · exact h1 a r hm
  refine ⟨_, hrun, ?_, ?_, ?_⟩
  · intro a r hm
    have := hc a r hm
    subst this
    exact ⟨rfl, rfl⟩
  · intro n hm
    have hm2 : Event.verbose_assumptions n ∈ (local_search_init env s phase).2 ++ k.2 := hm
    rw [List.mem_append] at hm2
    rcases hm2 with hm2 | hm2
    · simp only [local_search_init, register_engine_trace, List.mem_append, List.mem_cons,
        List.mem_map, List.not_mem_nil, or_false] at hm2
      rcases hm2 with (hm2 | hm2 | hm2 | hm2) | ⟨th, _, hm2⟩ <;> cases hm2
    · exact h2 n hm2
  · intro out hout a r hm
    obtain ⟨ph, _, rfl⟩ := local_search_some env s phase _ hrun out hout
    have hm2 : Event.check a r ∈ ((local_search_init env s phase).2 ++ k.2) ++
        [Event.unsat_empty (env.unsat_set k.1.s.world).isEmpty, Event.pop_child] := hm
    rw [List.mem_append] at hm2
    rcases hm2 with hm2 | hm2
    · exact hc a r hm2
    · simp only [List.mem_cons, List.mem_singleton, List.not_mem_nil, or_false] at hm2
      rcases hm2 with hm2 | hm2 <;> cases hm2


/-! ## The refinement steps of the theory solvers -/

theorem refinement_calls_cons (e : Event) (t : List Event) :
    refinement_calls (e :: t) =
      refinement_calls t + (if e.is_th_local_search = true then 1 else 0) := by
  simp [refinement_calls, List.countP_cons]

theorem refinement_calls_append (t1 t2 : List Event) :
    refinement_calls (t1 ++ t2) = refinement_calls t1 + refinement_calls t2 := by
  simp [refinement_calls]

theorem refinement_calls_round_body {σ : Type} (env : Env σ) (ls : LoopState σ) :
    refinement_calls (round_body env ls).2 = env.num_solvers := by
  rw [round_body_trace, refinement_calls_append, refinement_calls_append]
  have h1 : refinement_calls (setup_bounds env ls.s ls.phase).2 = 0 :=
    countP_eq_zero_of_kind Event.is_th_local_search Event.in_setup_bounds _
      (setup_bounds_trace_kind env ls.s ls.phase)
      (by intro e; cases e <;> simp [Event.in_setup_bounds, Event.is_th_local_search])
  have h2 : refinement_calls ((m_solvers env).map Event.th_local_search) =
      env.num_solvers := by
    unfold refinement_calls
    rw [List.countP_eq_length.2]
    · simp [m_solvers]
    · intro e he
      rw [List.mem_map] at he
      obtain ⟨th, _, rfl⟩ := he
      rfl
  rw [h1, h2]
  simp [refinement_calls, Event.is_th_local_search]

theorem round_loop_refinement_calls {σ : Type} (env : Env σ) (fuel : Nat)
    (ls : LoopState σ) (k : LoopState σ × List Event)
    (h : round_loop env fuel ls = some k) :
    refinement_calls k.2 = rounds_executed k.2 * env.num_solvers := by
  refine round_loop_induct env
    (fun _ k => refinement_calls k.2 = rounds_executed k.2 * env.num_solvers)
    ?_ ?_ ?_ fuel ls k h
  · intro ls _
    simp [refinement_calls, rounds_executed, Event.is_th_local_search, Event.is_check]
  · intro ls _ _ _
    simp only [List.cons_append, refinement_calls_cons, refinement_calls_append,
      rounds_executed_cons, rounds_executed_append, refinement_calls_round_body,
      rounds_executed_round_body, Event.is_th_local_search, Event.is_check]
    simp [refinement_calls, rounds_executed]
  · intro ls k _ _ _ _ ih
    simp only [List.cons_append, refinement_calls_cons, refinement_calls_append,
      rounds_executed_cons, rounds_executed_append, refinement_calls_round_body,
      rounds_executed_round_body, Event.is_th_local_search, Event.is_check, ih]
    simp
    rw [Nat.add_mul, Nat.one_mul]

/-- The refinement steps thread the world and `phase` from one theory solver to
the next, in the order of `m_solvers`. -/
theorem theories_local_search_threads {σ : Type} (env : Env σ) (w : σ) (phase : List Bool) :
    (theories_local_search env w phase).1 =
      (m_solvers env).foldl (fun (p : σ × List Bool) th =>
        ((env.th_local_search th p.2 p.1).2, (env.th_local_search th p.2 p.1).1))
        (w, phase) := by
  unfold theories_local_search
  generalize m_solvers env = xs
  generalize (w, phase) = p
  induction xs generalizing p with
  | nil => rfl
  | cons x xs ih =>
    simp only [for_each, List.foldl_cons]
    exact ih _

/-- Before every convergence test of a run of the loop come the engine's `check`,
the `pop` and then the refinement step of every theory solver, in order. -/
theorem round_loop_refinement_before_test {σ : Type} (env : Env σ) (fuel : Nat)
    (ls : LoopState σ) (k : LoopState σ × List Event)
    (h : round_loop env fuel ls = some k) :
    ∀ pre post b, k.2 = pre ++ Event.unsat_empty b :: post →
      ∃ pre1 r, pre = pre1 ++ Event.check [] r :: Event.rlimit_pop ::
        (m_solvers env).map Event.th_local_search := by
  have hbody : ∀ (ls : LoopState σ) (front : List Event), ∃ pre1 r,
      front ++ Event.inc true :: (round_body env ls).2 =
        pre1 ++ Event.check [] r :: Event.rlimit_pop ::
          (m_solvers env).map Event.th_local_search := by
    intro ls front
    refine ⟨front ++ Event.inc true :: ((setup_bounds env ls.s ls.phase).2 ++
      [Event.verbose_assumptions 0,
       Event.rlimit_push (setup_bounds env ls.s ls.phase).1.m_max_bool_steps]),
      (env.check [] (env.rlimit_push (setup_bounds env ls.s ls.phase).1.m_max_bool_steps
        (setup_bounds env ls.s ls.phase).1.world)).1, ?_⟩
    rw [round_body_trace]
    simp only [List.append_assoc, List.cons_append, List.nil_append]
  refine round_loop_induct env
    (fun _ k => ∀ pre post b, k.2 = pre ++ Event.unsat_empty b :: post →
      ∃ pre1 r, pre = pre1 ++ Event.check [] r :: Event.rlimit_pop ::
        (m_solvers env).map Event.th_local_search) ?_ ?_ ?_ fuel ls k h
  · intro ls _ pre post b hp
    cases pre with
    | nil => cases hp
    | cons p ps =>
      simp only [List.cons_append, List.cons.injEq] at hp
      cases ps <;> cases hp.2
  · intro ls _ _ _ pre post b hp
    have hp2 : (Event.inc true :: (round_body env (after_inc env ls)).2) ++
        Event.unsat_empty true :: [] = pre ++ Event.unsat_empty b :: post := hp
    rcases split_cases _ _ _ _ pre post
        (not_mem_inc_round_body env _ (Event.unsat_empty b) rfl (by simp)) hp2
      with ⟨hpre, _, _⟩ | ⟨q, _, hq2⟩
    · rw [hpre]
      exact hbody _ []
    · cases q <;> cases hq2
  · intro ls k _ _ _ _ ih pre post b hp
    have hp2 : (Event.inc true :: (round_body env (after_inc env ls)).2) ++
        Event.unsat_empty false :: k.2 = pre ++ Event.unsat_empty b :: post := hp
    rcases split_cases _ _ _ _ pre post
        (not_mem_inc_round_body env _ (Event.unsat_empty b) rfl (by simp)) hp2
      with ⟨hpre, _, _⟩ | ⟨q, hq1, hq2⟩
    · rw [hpre]
      exact hbody _ []
    · obtain ⟨pre1, r, hq⟩ := ih q post b hq2
      refine ⟨(Event.inc true :: (round_body env (after_inc env ls)).2) ++
        Event.unsat_empty false :: pre1, r, ?_⟩
      rw [hq1, hq]
      simp only [List.append_assoc, List.cons_append]

/-- C18: in every executed round each theory solver's refinement step is called
exactly once, in the order of `m_solvers`, each on the world and `phase` left by
the previous one, after the engine's `check` (and the `pop`) and before the
convergence test, also in the round that converges; over a call the number of
refinement steps is the number of rounds times the number of theory solvers. -/
theorem refinement_once_per_round {σ : Type} (env : Env σ) (s : State σ)
    (phase : List Bool) :
    (∀ ls : LoopState σ,
      (round_body env ls).2 =
        (setup_bounds env ls.s ls.phase).2 ++
          [Event.verbose_assumptions 0,
           Event.rlimit_push (setup_bounds env ls.s ls.phase).1.m_max_bool_steps,
           Event.check []
             (env.check [] (env.rlimit_push (setup_bounds env ls.s ls.phase).1.m_max_bool_steps
               (setup_bounds env ls.s ls.phase).1.world)).1,
           Event.rlimit_pop] ++
          (m_solvers env).map Event.th_local_search ∧
      refinement_calls (round_body env ls).2 = env.num_solvers) ∧
    (∀ (w : σ) (ph : List Bool),
      (theories_local_search env w ph).1 =
        (m_solvers env).foldl (fun (p : σ × List Bool) th =>
          ((env.th_local_search th p.2 p.1).2, (env.th_local_search th p.2 p.1).1))
          (w, ph)) ∧
    ∃ k, run_rounds env s phase = some k ∧
      refinement_calls k.2 = rounds_executed k.2 * env.num_solvers ∧
      (∀ pre post b, k.2 = pre ++ Event.unsat_empty b :: post →
        ∃ pre1 r, pre = pre1 ++ Event.check [] r :: Event.rlimit_pop ::
          (m_solvers env).map Event.th_local_search) ∧
      ∀ out, local_search env s phase = some out →
        refinement_calls out.trace = rounds_executed out.trace * env.num_solvers := by
  refine ⟨fun ls => ⟨round_body_trace env ls, refinement_calls_round_body env ls⟩,
    theories_local_search_threads env, ?_⟩
  obtain ⟨k, hk, hrun⟩ := run_rounds_loop env s phase
  obtain ⟨i1, _⟩ := local_search_init_counts env s phase
  obtain ⟨_, hue⟩ := not_mem_local_search_init env s phase
  have i3 : refinement_calls (local_search_init env s phase).2 = 0 := by
    simp only [refinement_calls, local_search_init, register_engine_trace,
      List.countP_append]
    rw [countP_map_eq_zero _ _ (fun _ => rfl)]
    rfl
  have hcount : refinement_calls ((local_search_init env s phase).2 ++ k.2) =
      rounds_executed ((local_search_init env s phase).2 ++ k.2) * env.num_solvers := by
    rw [refinement_calls_append, rounds_executed_append, i1, i3,
      round_loop_refinement_calls env _ _ k hk, Nat.zero_add, Nat.zero_add]
  refine ⟨_, hrun, hcount, ?_, ?_⟩
  · intro pre post b hp
    obtain ⟨q, hq1, hq2⟩ := split_left _ _ _ pre post (hue b) hp
    obtain ⟨pre1, r, hq⟩ := round_loop_refinement_before_test env _ _ k hk q post b hq2
    exact ⟨(local_search_init env s phase).2 ++ pre1, r, by rw [hq1, hq, List.append_assoc]⟩
  · intro out hout
    obtain ⟨ph, _, rfl⟩ := local_search_some env s phase _ hrun out hout
    show refinement_calls (((local_search_init env s phase).2 ++ k.2) ++ _) =
      rounds_executed (((local_search_init env s phase).2 ++ k.2) ++ _) * env.num_solvers
    rw [refinement_calls_append, rounds_executed_append, hcount]
    have t1 : rounds_executed [Event.unsat_empty (env.unsat_set k.1.s.world).isEmpty,
        Event.pop_child] = 0 := rfl
    have t2 : refinement_calls [Event.unsat_empty (env.unsat_set k.1.s.world).isEmpty,
        Event.pop_child] = 0 := rfl
    rw [t1, t2, Nat.add_zero, Nat.add_zero]


/-! ## Every literal occurrence is counted once -/

theorem count_literal_tally {σ : Type} (env : Env σ) (th : Nat) (hth : th < env.num_solvers)
    (l : literal) (c : Counters σ) :
    (count_literal env l c).1.num_literals = c.num_literals ∧
      ((count_literal env l c).1.num_bool +
        (bounds_received th (count_literal env l c).2).length) % UINT_MOD =
        (c.num_bool + 1) % UINT_MOD ∧
      (c.num_bool < UINT_MOD → (count_literal env l c).1.num_bool < UINT_MOD) := by
  have hpos : 0 < UINT_MOD := by rw [uint_mod_eq]; omega
  unfold count_literal
  cases hprop : is_propositional env c.world l with
  | true =>
    refine ⟨rfl, ?_, fun _ => Nat.mod_lt _ hpos⟩
    simp only [if_true, bounds_received, List.filterMap_nil, List.length_nil, Nat.add_zero,
      Nat.mod_mod]
  | false =>
    refine ⟨rfl, ?_, fun h => h⟩
    simp only [Bool.false_eq_true, if_false, notify_bounds_trace, m_solvers,
      bounds_received_range, hth, if_true, List.length_singleton]

theorem count_literals_tally {σ : Type} (env : Env σ) (th : Nat) (hth : th < env.num_solvers)
    (lits : List literal) :
    ∀ c : Counters σ,
      (for_each (count_literal env) lits c).1.num_literals = c.num_literals ∧
      ((for_each (count_literal env) lits c).1.num_bool +
        (bounds_received th (for_each (count_literal env) lits c).2).length) % UINT_MOD =
        (c.num_bool + lits.length) % UINT_MOD ∧
      (c.num_bool < UINT_MOD →
        (for_each (count_literal env) lits c).1.num_bool < UINT_MOD) := by
  induction lits with
  | nil =>
    intro c
    exact ⟨rfl, rfl, fun h => h⟩
  | cons l ls ih =>
    intro c
    obtain ⟨h1, h2, h3⟩ := count_literal_tally env th hth l c
    obtain ⟨g1, g2, g3⟩ := ih (count_literal env l c).1
    simp only [for_each, bounds_received_append, List.length_append, List.length_cons]
    refine ⟨by rw [g1, h1], ?_, fun h => g3 (h3 h)⟩
    rw [uint_mod_eq] at *
    omega

theorem count_clause_tally {σ : Type} (env : Env σ) (th : Nat) (hth : th < env.num_solvers)
    (cl : Nat) (c : Counters σ) :
    ∃ size,
      (count_clause env cl c).1.num_literals = (c.num_literals + size) % UINT_MOD ∧
      ((count_clause env cl c).1.num_bool +
        (bounds_received th (count_clause env cl c).2).length) % UINT_MOD =
        (c.num_bool + size) % UINT_MOD ∧
      (c.num_bool < UINT_MOD → (count_clause env cl c).1.num_bool < UINT_MOD) := by
  obtain ⟨g1, g2, g3⟩ := count_literals_tally env th hth (env.get_clause_info c.world cl)
    { c with num_literals :=
      (c.num_literals + (env.get_clause_info c.world cl).length) % UINT_MOD }
  exact ⟨(env.get_clause_info c.world cl).length, g1, g2, g3⟩

theorem count_clauses_tally {σ : Type} (env : Env σ) (th : Nat) (hth : th < env.num_solvers)
    (cls : List Nat) :
    ∀ c : Counters σ, c.num_literals < UINT_MOD → c.num_bool < UINT_MOD →
      (for_each (count_clause env) cls c).1.num_literals < UINT_MOD ∧
      (for_each (count_clause env) cls c).1.num_bool < UINT_MOD ∧
      ∃ total,
        (for_each (count_clause env) cls c).1.num_literals =
          (c.num_literals + total) % UINT_MOD ∧
        ((for_each (count_clause env) cls c).1.num_bool +
          (bounds_received th (for_each (count_clause env) cls c).2).length) % UINT_MOD =
          (c.num_bool + total) % UINT_MOD := by
  have hpos : 0 < UINT_MOD := by rw [uint_mod_eq]; omega
  induction cls with
  | nil =>
    intro c hl hb
    exact ⟨hl, hb, 0, (Nat.mod_eq_of_lt hl).symm, rfl⟩
  | cons cl cls ih =>
    intro c hl hb
    obtain ⟨size, h1, h2, h3⟩ := count_clause_tally env th hth cl c
    obtain ⟨g1, g2, total, g3, g4⟩ := ih (count_clause env cl c).1
      (by rw [h1]; exact Nat.mod_lt _ hpos) (h3 hb)
    simp only [for_each, bounds_received_append, List.length_append]
    refine ⟨g1, g2, size + total, ?_, ?_⟩
    · rw [g3, h1, Nat.mod_add_mod, Nat.add_assoc]
    · rw [uint_mod_eq] at *
      omega

/-- The counters of a run of `setup_bounds`: the values it reports and passes
on, and the relation between them. -/
theorem setup_bounds_tally {σ : Type} (env : Env σ) (s : State σ) (phase : List Bool) :
    (setup_bounds env s phase).2 =
        (m_solvers env).map Event.set_bounds_begin ++
          (count_unsat_clauses env (notify_begin env s.world).1).2 ++
          [Event.verbose_bounds
            (count_unsat_clauses env (notify_begin env s.world).1).1.num_literals
            (count_unsat_clauses env (notify_begin env s.world).1).1.num_bool
            (setup_bounds env s phase).1.m_max_bool_steps] ++
          (m_solvers env).map (fun th => Event.set_bounds_end th
            (count_unsat_clauses env (notify_begin env s.world).1).1.num_literals) ∧
      (setup_bounds env s phase).1.m_max_bool_steps =
        max 10000 ((env.L *
          (count_unsat_clauses env (notify_begin env s.world).1).1.num_bool) % UINT_MOD) ∧
      ∀ th, th < env.num_solvers →
        (count_unsat_clauses env (notify_begin env s.world).1).1.num_literals =
          ((count_unsat_clauses env (notify_begin env s.world).1).1.num_bool +
            (bounds_received th (setup_bounds env s phase).2).length) % UINT_MOD := by
  have hpos : 0 < UINT_MOD := by rw [uint_mod_eq]; omega
  refine ⟨?_, rfl, ?_⟩
  · simp only [setup_bounds, notify_begin_trace, notify_end_trace, count_unsat_clauses]
  · intro th hth
    obtain ⟨h1, _, total, h3, h4⟩ := count_clauses_tally env th hth
      (env.unsat_set (notify_begin env s.world).1)
      { world := (notify_begin env s.world).1, num_literals := 0, num_bool := 0 } hpos hpos
    have hrecv : bounds_received th (setup_bounds env s phase).2 =
        bounds_received th (count_unsat_clauses env (notify_begin env s.world).1).2 := by
      simp only [setup_bounds, notify_begin_trace, notify_end_trace, bounds_received_append,
        count_unsat_clauses]
      rw [bounds_received_map_other th Event.set_bounds_begin (fun _ => rfl),
        bounds_received_map_other th (fun th1 => Event.set_bounds_end th1 _) (fun _ => rfl)]
      simp [bounds_received]
    rw [hrecv]
    unfold count_unsat_clauses
    rw [h4]
    simp only [Nat.zero_add] at h3 ⊢
    exact h3

/-- What theory solver `th` receives as `set_bounds` arguments in one run of
`setup_bounds`, under `bounds_frame`. -/
theorem setup_bounds_bounds_received {σ : Type} (env : Env σ) (hframe : bounds_frame env)
    (s : State σ) (phase : List Bool) (th : Nat) (hth : th < env.num_solvers) :
    bounds_received th (setup_bounds env s phase).2 =
      (theory_literals env (notify_begin env s.world).1).map
        (literal_node env (notify_begin env s.world).1) := by
  rw [(setup_bounds_closed env hframe s phase).2, bounds_received_append,
    bounds_received_append, bounds_received_append,
    bounds_received_map_other th Event.set_bounds_begin (fun _ => rfl),
    bounds_received_map_other th (fun th1 => Event.set_bounds_end th1 _) (fun _ => rfl),
    bounds_received_literal_events env _ th hth]
  simp [theory_literals, bounds_received]

theorem literals_partition {σ : Type} (env : Env σ) (w : σ) (lits : List literal) :
    lits.length = lits.countP (is_propositional env w) +
      (lits.filter (fun l => !is_propositional env w l)).length := by
  induction lits with
  | nil => rfl
  | cons l ls ih =>
    cases hprop : is_propositional env w l with
    | true =>
      simp only [List.length_cons, List.countP_cons, List.filter_cons, hprop, if_true,
        Bool.not_true, Bool.false_eq_true, if_false]
      omega
    | false =>
      simp only [List.length_cons, List.countP_cons, List.filter_cons, hprop,
        Bool.false_eq_true, if_false, Bool.not_false, if_true]
      omega

/-- C19: in every run of `setup_bounds` the total literal count passed to
`set_bounds_end` is, modulo `2 ^ 32`, the propositional-literal count used in the
budget plus the number of `set_bounds` notifications that any single theory
solver received, and exactly that sum when it does not overflow; every literal
occurrence of an unsatisfied clause is either propositional or theory-carrying,
and (with notifications that leave the clauses and the congruence structure as
they are) the two counters and the notifications count exactly these. -/
theorem literal_count_identity {σ : Type} (env : Env σ) (s : State σ)
    (phase : List Bool) :
    (setup_bounds env s phase).2 =
        (m_solvers env).map Event.set_bounds_begin ++
          (count_unsat_clauses env (notify_begin env s.world).1).2 ++
          [Event.verbose_bounds
            (count_unsat_clauses env (notify_begin env s.world).1).1.num_literals
            (count_unsat_clauses env (notify_begin env s.world).1).1.num_bool
            (setup_bounds env s phase).1.m_max_bool_steps] ++
          (m_solvers env).map (fun th => Event.set_bounds_end th
            (count_unsat_clauses env (notify_begin env s.world).1).1.num_literals) ∧
    (setup_bounds env s phase).1.m_max_bool_steps =
      max 10000 ((env.L *
        (count_unsat_clauses env (notify_begin env s.world).1).1.num_bool) % UINT_MOD) ∧
    (∀ th, th < env.num_solvers →
      (count_unsat_clauses env (notify_begin env s.world).1).1.num_literals =
        ((count_unsat_clauses env (notify_begin env s.world).1).1.num_bool +
          (bounds_received th (setup_bounds env s phase).2).length) % UINT_MOD ∧
      ((count_unsat_clauses env (notify_begin env s.world).1).1.num_bool +
          (bounds_received th (setup_bounds env s phase).2).length < UINT_MOD →
        (count_unsat_clauses env (notify_begin env s.world).1).1.num_literals =
          (count_unsat_clauses env (notify_begin env s.world).1).1.num_bool +
            (bounds_received th (setup_bounds env s phase).2).length)) ∧
    (∀ w, (unsat_literals env w).length =
      propositional_count env w + (theory_literals env w).length) ∧
    (bounds_frame env →
      (count_unsat_clauses env (notify_begin env s.world).1).1.num_literals =
        (unsat_literals env (notify_begin env s.world).1).length % UINT_MOD ∧
      (count_unsat_clauses env (notify_begin env s.world).1).1.num_bool =
        propositional_count env (notify_begin env s.world).1 % UINT_MOD ∧
      ∀ th, th < env.num_solvers →
        (bounds_received th (setup_bounds env s phase).2).length =
          (theory_literals env (notify_begin env s.world).1).length) := by
  obtain ⟨h1, h2, h3⟩ := setup_bounds_tally env s phase
  have hpos : 0 < UINT_MOD := by rw [uint_mod_eq]; omega
  refine ⟨h1, h2, ?_, ?_, ?_⟩
  · intro th hth
    refine ⟨h3 th hth, fun hlt => ?_⟩
    have h4 := h3 th hth
    rw [Nat.mod_eq_of_lt hlt] at h4
    exact h4
  · intro w
    exact literals_partition env w (unsat_literals env w)
  · intro hframe
    obtain ⟨_, _, g3, g4⟩ := count_clauses_closed env hframe (notify_begin env s.world).1
      (env.unsat_set (notify_begin env s.world).1)
      { world := (notify_begin env s.world).1, num_literals := 0, num_bool := 0 }
      (same_view_refl env _) hpos hpos
    simp only [Nat.zero_add] at g3 g4
    refine ⟨g3, g4, ?_⟩
    intro th hth
    rw [setup_bounds_bounds_received env hframe s phase th hth, List.length_map]

theorem literal_count_identity_witness :
    (count_unsat_clauses (sample_env 2 100) (notify_begin (sample_env 2 100) 0).1).1.num_literals
        = 4 ∧
      (count_unsat_clauses (sample_env 2 100) (notify_begin (sample_env 2 100) 0).1).1.num_bool
        = 2 ∧
      (bounds_received 0 (setup_bounds (sample_env 2 100) ⟨0, 0⟩ []).2).length = 2 ∧
      (count_unsat_clauses (sample_env 2 100) (notify_begin (sample_env 2 100) 0).1).1.num_literals
        = (count_unsat_clauses (sample_env 2 100)
            (notify_begin (sample_env 2 100) 0).1).1.num_bool +
          (bounds_received 0 (setup_bounds (sample_env 2 100) ⟨0, 0⟩ []).2).length :=
  ⟨by decide, by decide, by decide,
   ((literal_count_identity (sample_env 2 100) ⟨0, 0⟩ []).2.2.1 0 (by decide)).2 (by decide)⟩

/-! ## `setup_bounds` and the phase -/

/-- C20: `setup_bounds` does not depend on the phase it is given: for any two
phases and the same state it computes the same budget, makes the same calls in the
same order and leaves the same state; it has no access to change `phase`, and the
refinement steps of the round receive the phase that `setup_bounds` was given. -/
theorem setup_bounds_ignores_phase {σ : Type} (env : Env σ) (s : State σ)
    (p1 p2 : List Bool) :
    setup_bounds env s p1 = setup_bounds env s p2 ∧
    (setup_bounds env s p1).1.m_max_bool_steps = (setup_bounds env s p2).1.m_max_bool_steps ∧
    (setup_bounds env s p1).2 = (setup_bounds env s p2).2 ∧
    (∀ th, solver_view th (setup_bounds env s p1).2 =
      solver_view th (setup_bounds env s p2).2) ∧
    (∀ ls : LoopState σ,
      (round_body env ls).1.phase =
        (theories_local_search env
          (env.rlimit_pop (env.check []
            (env.rlimit_push (setup_bounds env ls.s ls.phase).1.m_max_bool_steps
              (setup_bounds env ls.s ls.phase).1.world)).2) ls.phase).1.2) := by
  have h : setup_bounds env s p1 = setup_bounds env s p2 := rfl
  refine ⟨h, ?_, ?_, ?_, ?_⟩
  · rw [h]
  · rw [h]
  · intro th
    rw [h]
  · intro ls
    rfl


/-! ## The phase that the loop leaves -/

/-- The rounds of a run of the loop: as many entry states as rounds executed,
chained by `round_chain`, and the phase at loop exit is the phase at entry when
there is none and the phase that the last round left otherwise. -/
theorem round_loop_chain {σ : Type} (env : Env σ) (fuel : Nat) (ls : LoopState σ)
    (k : LoopState σ × List Event) (h : round_loop env fuel ls = some k) :
    ∃ entries : List (LoopState σ),
      entries.length = rounds_executed k.2 ∧
      round_chain env ls entries ∧
      (entries = [] → k.1.phase = ls.phase) ∧
      (∀ e, entries.getLast? = some e → k.1.phase = (round_body env e).1.phase) := by
  refine round_loop_induct env
    (fun ls k => ∃ entries : List (LoopState σ),
      entries.length = rounds_executed k.2 ∧
      round_chain env ls entries ∧
      (entries = [] → k.1.phase = ls.phase) ∧
      (∀ e, entries.getLast? = some e → k.1.phase = (round_body env e).1.phase))
    ?_ ?_ ?_ fuel ls k h
  · intro ls _
    refine ⟨[], rfl, trivial, fun _ => rfl, ?_⟩
    intro e he
    cases he
  · intro ls _ _ _
    refine ⟨[after_inc env ls], ?_, ⟨rfl, trivial⟩, ?_, ?_⟩
    · rw [List.cons_append, rounds_executed_cons, rounds_executed_append,
        rounds_executed_round_body]
      rfl
    · intro hnil
      cases hnil
    · intro e he
      simp only [List.getLast?_singleton, Option.some.injEq] at he
      subst he
      rfl
  · intro ls k _ _ _ _ ih
    obtain ⟨entries, hlen, hchain, hnil, hlast⟩ := ih
    refine ⟨after_inc env ls :: entries, ?_, ⟨rfl, hchain⟩, ?_, ?_⟩
    · rw [List.cons_append, rounds_executed_cons, rounds_executed_append,
        rounds_executed_cons, rounds_executed_round_body, List.length_cons, hlen]
      simp only [Event.is_check]
      simp
      omega
    · intro hne
      cases hne
    · intro e he
      cases entries with
      | nil =>
        simp only [List.getLast?_singleton, Option.some.injEq] at he
        subst he
        exact hnil rfl
      | cons e1 es =>
        rw [List.getLast?_cons_cons] at he
        exact hlast e he

/-- C6: on return, at every index covered by the engine's best-known model
`phase` is true exactly when the model is `l_true` there (false for `l_false` and
`l_undef`), whatever the theory solvers wrote; at every index beyond the model
`phase` is what the loop left: the caller's value when no round ran, and otherwise
the phase that the refinement steps of the last executed round produced, each
theory solver in turn working on the phase left by the previous one; the call
returns when the model is no longer than `phase`. -/
theorem phase_on_return {σ : Type} (env : Env σ) (s : State σ) (phase : List Bool) :
    ∃ k, run_rounds env s phase = some k ∧
      (rounds_executed k.2 = 0 → k.1.phase = phase) ∧
      (∃ entries : List (LoopState σ),
        entries.length = rounds_executed k.2 ∧
        round_chain env (loop_entry env s phase) entries ∧
        (loop_entry env s phase).phase = phase ∧
        ∀ e, entries.getLast? = some e →
          k.1.phase =
            ((m_solvers env).foldl (fun (p : σ × List Bool) th =>
              ((env.th_local_search th p.2 p.1).2, (env.th_local_search th p.2 p.1).1))
              (env.rlimit_pop (env.check []
                (env.rlimit_push (setup_bounds env e.s e.phase).1.m_max_bool_steps
                  (setup_bounds env e.s e.phase).1.world)).2, e.phase)).2) ∧
      ((env.get_model k.1.s.world).length ≤ k.1.phase.length →
        ∃ out, local_search env s phase = some out) ∧
      ∀ out, local_search env s phase = some out →
        (∀ (i : Nat) (m : lbool), (env.get_model k.1.s.world)[i]? = some m →
          out.phase[i]? = some (decide (m = lbool.l_true))) ∧
        (∀ i : Nat, (env.get_model k.1.s.world).length ≤ i →
          out.phase[i]? = k.1.phase[i]?) := by
  obtain ⟨k, hk, hrun⟩ := run_rounds_loop env s phase
  obtain ⟨i1, _⟩ := local_search_init_counts env s phase
  have hcount : rounds_executed ((local_search_init env s phase).2 ++ k.2) =
      rounds_executed k.2 := by
    rw [rounds_executed_append, i1, Nat.zero_add]
  have hcopy := phase_after_copy env s phase k.1 ((local_search_init env s phase).2 ++ k.2) hrun
  refine ⟨_, hrun, ?_, ?_, hcopy.1, hcopy.2⟩
  · intro h0
    have h1 : rounds_executed ((local_search_init env s phase).2 ++ k.2) = 0 := h0
    rw [hcount] at h1
    exact round_loop_phase_unchanged env _ _ k hk h1
  · obtain ⟨entries, hlen, hchain, _, hlast⟩ := round_loop_chain env _ _ k hk
    refine ⟨entries, ?_, hchain, rfl, ?_⟩
    · show entries.length = rounds_executed ((local_search_init env s phase).2 ++ k.2)
      rw [hcount, hlen]
    · intro e he
      have h2 : k.1.phase = (round_body env e).1.phase := hlast e he
      have h3 : (round_body env e).1.phase =
          (theories_local_search env
            (env.rlimit_pop (env.check []
              (env.rlimit_push (setup_bounds env e.s e.phase).1.m_max_bool_steps
                (setup_bounds env e.s e.phase).1.world)).2) e.phase).1.2 := rfl
      show k.1.phase = _
      rw [h2, h3, theories_local_search_threads]

theorem phase_on_return_witness :
    (local_search writing_env ⟨0, 10⟩ [true, false, false]).map Outcome.phase =
        some [false, true, true] ∧
      ∃ k, run_rounds writing_env ⟨0, 10⟩ [true, false, false] = some k ∧
        (rounds_executed k.2 = 0 → k.1.phase = [true, false, false]) ∧
        ∀ out, local_search writing_env ⟨0, 10⟩ [true, false, false] = some out →
          ∀ i : Nat, (writing_env.get_model k.1.s.world).length ≤ i →
            out.phase[i]? = k.1.phase[i]? := by
  refine ⟨by decide, ?_⟩
  obtain ⟨k, hk, h0, _, _, hout⟩ := phase_on_return writing_env ⟨0, 10⟩ [true, false, false]
  exact ⟨k, hk, h0, fun out ho => (hout out ho).2⟩


/-! ## The broadcast, literal by literal -/

end euf
